import Mathlib

/-!
Shallow embedding of the form-state core of `svelte-form-validation`
(file `src/lib/index.ts` of the repository): the metadata ("state") tree,
the state-tree builders `createValidatedState` / `createRawState`, the
validation pass `clearErrors` / `setErrors` / `validate`, and the engine
operations `validateForm`, `updateState`, `resetForm`, `createForm`.

Modelling conventions (JS semantics made explicit):

* A metadata node is a JS object or array.  Its `_touched` (optional
  boolean) and `_errors` (optional string list) properties are modelled as
  explicit optional fields; all *other* enumerable properties are the
  node's children.  A bare boolean property value (the misspelled
  `touched: false` key produced by the fallback insertion in `setErrors`)
  is modelled by the `bval` constructor.  Keys literally named
  `"_touched"`/`"_errors"` in data, schema or paths would alias the two
  modelled fields in JS and are not modelled.
* `for (let key in obj)` enumerates properties in insertion order; the
  children lists keep that order, and property assignment updates an
  existing key in place or appends a new one.
* Svelte stores: `get` returns the stored object itself (not a copy), so
  in-place mutation of the tree is observable even when `store.set` is
  never called.  All functions below therefore return the tree as it is
  *observable* after the call, which is how the original code's aliasing
  behaves.
* `JSON.parse(JSON.stringify(x))` on a metadata tree is a deep copy,
  modelled as the identity.  (The real round-trip drops the
  `_touched`/`_errors` expando properties of *array* nodes; the builders
  receiving the copy never read those two properties of a previous array —
  they rebuild arrays from scratch — so the difference is unobservable in
  everything proved here.)
-/

/-- A node of the metadata ("form state") tree.  `node` is a JS object
(children = enumerable properties other than `_touched`/`_errors`), `seq`
is a JS array with the same two expando properties, `bval` is a bare
boolean property value. -/
inductive StateNode where
  | bval (b : Bool)
  | node (touched : Option Bool) (errors : Option (List String)) (children : List (String × StateNode))
  | seq (touched : Option Bool) (errors : Option (List String)) (elems : List StateNode)

/-- The `_touched` property of a node (`undefined` on a bare boolean). -/
def StateNode.touchedOf : StateNode → Option Bool
  | .bval _ => none
  | .node t _ _ => t
  | .seq t _ _ => t

/-- The `_errors` property of a node (`undefined` on a bare boolean). -/
def StateNode.errorsOf : StateNode → Option (List String)
  | .bval _ => none
  | .node _ e _ => e
  | .seq _ e _ => e

/-- JS truthiness of a metadata property value: objects and arrays are
truthy, a boolean is its own truth value. -/
def StateNode.truthy : StateNode → Bool
  | .bval b => b
  | .node _ _ _ => true
  | .seq _ _ _ => true

/-- `{}`, the empty object used as the default `state` argument of the
builders. -/
def emptyState : StateNode := .node none none []

/-- Property lookup in an object's children (first match, JS objects have
unique keys). -/
def lookupChild : List (String × StateNode) → String → Option StateNode
  | [], _ => none
  | (k', v) :: rest, k => if k' = k then some v else lookupChild rest k

/-- JS property assignment on an object: overwrite an existing key in
place, otherwise append (insertion order). -/
def setChild : List (String × StateNode) → String → StateNode → List (String × StateNode)
  | [], k, v => [(k, v)]
  | (k', v') :: rest, k, v =>
    if k' = k then (k, v) :: rest else (k', v') :: setChild rest k v

/-- Value of a decimal digit character (codepoints 48-57), `none` for
anything else. -/
def digitVal (c : Char) : Option Nat :=
  if 48 ≤ c.toNat && c.toNat ≤ 57 then some (c.toNat - 48) else none

def digitsToNat : List Char → Nat → Option Nat
  | [], acc => some acc
  | c :: rest, acc =>
    match digitVal c with
    | some d => digitsToNat rest (acc * 10 + d)
    | none => none

/-- A path segment read as a JS array index: a nonempty run of decimal
digits (JS's non-canonical `arr["01"]` corner is not modelled; no claim
exercises it). -/
def jsArrayIndex (s : String) : Option Nat :=
  match s.toList with
  | [] => none
  | l => digitsToNat l 0

/-- `obj[segment]`: property read on a metadata node.  On an array a
numeric-string segment indexes the elements; a boolean has no
properties. -/
def metaIndex : StateNode → String → Option StateNode
  | .bval _, _ => none
  | .node _ _ cs, k => lookupChild cs k
  | .seq _ _ vs, k => (jsArrayIndex k).bind (fun i => vs.get? i)

/-- `obj[segment] = v` on a metadata node.  On an array, a numeric index
below the length overwrites, index = length appends (sparse arrays beyond
the length are not modelled; no claim exercises them). -/
def setIndex : StateNode → String → StateNode → StateNode
  | .bval b, _, _ => .bval b
  | .node t e cs, k, v => .node t e (setChild cs k v)
  | .seq t e vs, k, v =>
    match jsArrayIndex k with
    | some i => if i < vs.length then .seq t e (vs.set i v) else .seq t e (vs ++ [v])
    | none => .seq t e vs

/-- The touch-policy expression of the source,
`typeof x === 'boolean' && !touch ? x : touch`: keep an already-boolean
flag when the forced flag is `false`, otherwise use the forced flag. -/
def touchPolicy (old : Option Bool) (touch : Bool) : Bool :=
  match old with
  | some b => if !touch then b else touch
  | none => touch

mutual
/-- `clearErrors(data, touch, ...)` applied to a node that is passed to the
function itself (the root of the call, or an array element mapped with
`clearErrors`): its own `_touched`/`_errors` keys are skipped by the
`for..in` guard, and every child property goes through the per-branch
transformation `clearErrorsChild`.  `for..in` over an array enumerates the
indices, so array elements in this position are also child-transformed. -/
def clearErrorsNode (touch : Bool) : StateNode → StateNode
  | .bval b => .bval b
  | .node t e cs => .node t e (clearErrorsChildren touch cs)
  | .seq t e vs => .seq t e (clearErrorsElemsAsChildren touch vs)

def clearErrorsChildren (touch : Bool) : List (String × StateNode) → List (String × StateNode)
  | [] => []
  | (k, v) :: rest => (k, clearErrorsChild touch v) :: clearErrorsChildren touch rest

def clearErrorsElemsAsChildren (touch : Bool) : List StateNode → List StateNode
  | [] => []
  | v :: rest => clearErrorsChild touch v :: clearErrorsElemsAsChildren touch rest

/-- The branch dispatch inside `clearErrors`'s loop, applied to the value
of one child property `data[key]`:
array → `data[key] = values.map(v => clearErrors(v, touch, true, update))`
followed by `data[key]._touched = ...` evaluated on the *fresh* mapped
array (whose `_touched` is `undefined`, so it is set to `touch`, the old
array flag being lost) and `data[key]._errors = []`;
object (leaves included) → spread of the recursive call with `_touched`
forced through the policy and `_errors` reset;
other (a bare boolean) → replaced by a fresh leaf `{_touched: touch,
_errors: []}` (the policy on an `undefined` flag yields `touch`). -/
def clearErrorsChild (touch : Bool) : StateNode → StateNode
  | .bval _ => .node (some touch) (some []) []
  | .node t _ cs => .node (some (touchPolicy t touch)) (some []) (clearErrorsChildren touch cs)
  | .seq _ _ vs => .seq (some touch) (some []) (clearErrorsElemsAsNodes touch vs)

def clearErrorsElemsAsNodes (touch : Bool) : List StateNode → List StateNode
  | [] => []
  | v :: rest => clearErrorsNode touch v :: clearErrorsElemsAsNodes touch rest
end

example :
    clearErrorsNode false
      (.node none none [("a", .node (some true) (some ["m"]) [])]) =
      .node none none [("a", .node (some true) (some []) [])] := rfl

example :
    clearErrorsNode false
      (.node none none [("users", .seq (some true) (some ["m"]) [.node none (some ["n"]) []])]) =
      .node none none [("users", .seq (some false) (some []) [.node none (some ["n"]) []])] := rfl

/-- Accumulating scanner behind `parsePath`: `cur` holds the characters of
the run being read, in reverse. -/
def parsePathAux : List Char → List Char → List String
  | [], cur => if cur.isEmpty then [] else [⟨cur.reverse⟩]
  | c :: rest, cur =>
    if c = '.' || c = '[' || c = ']' then
      if cur.isEmpty then parsePathAux rest [] else ⟨cur.reverse⟩ :: parsePathAux rest []
    else parsePathAux rest (c :: cur)

/-- `path.toString().match(/[^.[\x5d]+/g) || []`: the maximal nonempty
runs of characters other than `.`, `[`, `]`. -/
def parsePath (s : String) : List String := parsePathAux s.toList []

example : parsePath "users[0].address.city" = ["users", "0", "address", "city"] := rfl
example : parsePath "title" = ["title"] := rfl
example : parsePath "" = [] := rfl

/-- One entry of the aggregate `ValidationError.inner` produced by the
external validation capability: a (nullable) flat path and a message. -/
structure Violation where
  path : Option String
  message : String

/-- The walk over the intermediate segments in `setErrors` /
`updateFieldTouched`: every segment must resolve to a truthy property. -/
def parentExists : StateNode → List String → Bool
  | _, [] => true
  | st, s :: rest =>
    match metaIndex st s with
    | some c => c.truthy && parentExists c rest
    | none => false

/-- The tail of `setErrors`'s loop body on the already-resolved parent:
insert a default node if `obj[last]` is falsy, ensure `_errors` exists,
push the message, and force `_touched` through the touch policy.  `none`
models a JS throw (property assignment on a `true` primitive), which
aborts the whole application. -/
def pushErrorAt (ti : Bool) (msg : String) (parent : StateNode) (last : String) : Option StateNode :=
  match metaIndex parent last with
  | some (.node t e cs) =>
    some (setIndex parent last (.node (some (touchPolicy t ti)) (some (e.getD [] ++ [msg])) cs))
  | some (.seq t e vs) =>
    some (setIndex parent last (.seq (some (touchPolicy t ti)) (some (e.getD [] ++ [msg])) vs))
  | some (.bval true) => none
  | some (.bval false) =>
    some (setIndex parent last (.node (some ti) (some [msg]) [("touched", .bval false)]))
  | none =>
    some (setIndex parent last (.node (some ti) (some [msg]) [("touched", .bval false)]))

/-- Application of one violation whose intermediate-segment walk has
already succeeded (or was skipped for paths of at most one segment):
descend along all but the last segment and run `pushErrorAt` on the
parent.  With no segments at all, JS reads `segments[-1]`, which is
`undefined` and is coerced to the property key `"undefined"`. -/
def applyErr (ti : Bool) (msg : String) : StateNode → List String → Option StateNode
  | st, [] => pushErrorAt ti msg st "undefined"
  | st, [last] => pushErrorAt ti msg st last
  | st, s :: rest =>
    match metaIndex st s with
    | some c => if c.truthy then (applyErr ti msg c rest).map (setIndex st s) else none
    | none => none

/-- The `for (let error of mainError.inner)` loop of `setErrors`, starting
from the already-cleared tree.  A violation with a `null` path makes
`error.path.toString()` throw: the surrounding catch logs and the whole
loop is abandoned, the tree staying as mutated so far (the store holds the
same object, so the mutations are observable even though `state.set` is
skipped).  A path with more than one segment whose intermediate walk fails
executes `break`, abandoning that violation *and every later one*. -/
def setErrorsLoop (ti : Bool) : StateNode → List Violation → StateNode
  | st, [] => st
  | st, v :: rest =>
    match v.path with
    | none => st
    | some p =>
      let segments := parsePath p
      if segments.length > 1 && !(parentExists st segments.dropLast) then st
      else
        match applyErr ti v.message st segments with
        | some st' => setErrorsLoop ti st' rest
        | none => st

/-- `setErrors(state, mainError, touchValid, touchInvalid)`: clear the
whole tree first (with the `touchValid` policy), then apply each violation
(with the `touchInvalid` policy).  The returned tree is the one observable
afterwards: the final `state.set` publishes it on the normal path, and on
the catch path the very same object has already been mutated in place. -/
def setErrors (st : StateNode) (mainErrorInner : List Violation) (tv ti : Bool) : StateNode :=
  setErrorsLoop ti (clearErrorsNode tv st) mainErrorInner

/-- `validate(form, schema, state, touchValid, touchInvalid)`: the external
capability (modelled by the violation list it produces for the current
data) succeeds iff that list is empty; on success the tree is cleared, on
failure `setErrors` runs.  Returns the `isValid` flag and the tree. -/
def validate (violations : List Violation) (tv ti : Bool) (st : StateNode) : Bool × StateNode :=
  if violations.isEmpty then (true, clearErrorsNode tv st)
  else (false, setErrors st violations tv ti)

example :
    setErrors (.node none none [("c", .node (some false) (some []) [])])
      [⟨some "a.b", "m1"⟩, ⟨some "c", "m2"⟩] false false =
      .node none none [("c", .node (some false) (some []) [])] := rfl

example :
    setErrors (.node none none [("c", .node (some false) (some []) [])])
      [⟨some "c", "m2"⟩] false false =
      .node none none [("c", .node (some false) (some ["m2"]) [])] := rfl

/-- A node of the data ("values") tree.  `prim` models a non-string JS
primitive scalar (number, boolean), whose `for..in` enumeration is empty;
its payload records JS truthiness (`0` = falsy).  `str` models a string
scalar: `typeof` is not `'object'` (so it is a leaf wherever the code
branches on the value's type), but `for..in` over a string enumerates its
character indices, which matters when a string is itself the `data`
argument of `createRawState` (the root, or an array element). -/
inductive Data where
  | prim (n : Nat)
  | str (s : String)
  | dobj (fields : List (String × Data))
  | darr (elems : List Data)

/-- Property lookup on a data object. -/
def lookupField : List (String × Data) → String → Option Data
  | [], _ => none
  | (k', v) :: rest, k => if k' = k then some v else lookupField rest k

/-- `d[k]` on a data value: objects by key, arrays by numeric index,
strings by character index (a one-character string), non-string primitives
have no properties.  (The `length` property of strings and arrays is not
modelled; no claim touches it.) -/
def dIndex : Data → String → Option Data
  | .prim _, _ => none
  | .str s, k => (jsArrayIndex k).bind (fun i => (s.toList.get? i).map (fun c => .str ⟨[c]⟩))
  | .dobj fs, k => lookupField fs k
  | .darr es, k => (jsArrayIndex k).bind (fun i => es.get? i)

/-- One declared field of the validation schema, as introspected by the
source: `schema[key].type === 'array'` (with `innerType.fields`),
`schema[key].type === 'object'` (with `fields`), or anything else. -/
inductive SchemaField where
  | sArray (innerFields : List (String × SchemaField))
  | sObject (fields : List (String × SchemaField))
  | sOther

/-- `x[i]` for a numeric index `i` on a metadata property value. -/
def elemIndex : StateNode → Nat → Option StateNode
  | .seq _ _ vs, i => vs.get? i
  | .node _ _ cs, i => lookupChild cs (toString i)
  | .bval _, _ => none

/-- `state?.[key]?._touched || false`. -/
def prevTouchedOrFalse (prev : Option StateNode) : Bool :=
  (prev.bind StateNode.touchedOf).getD false

/-- Children of an array copied into a plain object, index keys first. -/
def indexedChildren (i : Nat) : List StateNode → List (String × StateNode)
  | [] => []
  | v :: rest => (toString i, v) :: indexedChildren (i + 1) rest

/-- `Object.assign({}, x)`: a fresh plain object holding `x`'s enumerable
properties (`{}` when `x` is nullish or a primitive). -/
def objAssignCopy : Option StateNode → StateNode
  | none => .node none none []
  | some (.bval _) => .node none none []
  | some (.node t e cs) => .node t e cs
  | some (.seq t e vs) => .node t e (indexedChildren 0 vs)

/-- `{ ...sub, _errors: [] }`: spread into a fresh object with the
`_errors` property overridden. -/
def withEmptyErrors : StateNode → StateNode
  | .bval _ => .node none (some []) []
  | .node t _ cs => .node t (some []) cs
  | .seq t _ vs => .node t (some []) (indexedChildren 0 vs)

/-- `(data?.[key] || [])` in the array branch of `createValidatedState`,
followed by `.map`: a missing or falsy value yields `[]`; a truthy
non-array value would make `.map` throw (modelled as the error). -/
def arrFieldValues (data : Option Data) (k : String) : Except Unit (List Data) :=
  match data with
  | none => .ok []
  | some d =>
    match dIndex d k with
    | none => .ok []
    | some (.darr es) => .ok es
    | some (.dobj _) => .error ()
    | some (.prim n) => if n = 0 then .ok [] else .error ()
    | some (.str s) => if s.toList.isEmpty then .ok [] else .error ()

/-- `data[key]` in the object branch of `createValidatedState`: a plain
property read with *no* optional chaining, so it throws (`TypeError`) when
`data` itself is `undefined`. -/
def dataIndexStrict : Option Data → String → Except Unit (Option Data)
  | none, _ => .error ()
  | some d, k => .ok (dIndex d k)

mutual
/-- `createValidatedState(data, schema, state)`: walk the schema's field
declarations in order, mutating `state`.  Array fields map
`createValidatedState` over the current data elements against the
previous element metadata and then attach a fresh `_errors`; object fields
with a nonempty field set recurse on `data[key]` (the strict read that can
throw); everything else — `isEmpty(schema[key].fields)` included — becomes
a leaf with `_touched` seeded from the previous metadata and `_errors`
reset.  Keys of `state` not named by the schema are left as they were. -/
def createValidatedState : Option Data → List (String × SchemaField) → StateNode → Except Unit StateNode
  | _, [], st => .ok st
  | data, (k, .sArray inner) :: rest, st =>
    match arrFieldValues data k with
    | .error e => .error e
    | .ok values =>
      match buildElems inner (metaIndex st k) 0 values with
      | .error e => .error e
      | .ok elems => createValidatedState data rest (setIndex st k (.seq none (some []) elems))
  | data, (k, .sObject fields) :: rest, st =>
    if fields.isEmpty then
      createValidatedState data rest
        (setIndex st k (.node (some (prevTouchedOrFalse (metaIndex st k))) (some []) []))
    else
      match dataIndexStrict data k with
      | .error e => .error e
      | .ok d' =>
        match createValidatedState d' fields (objAssignCopy (metaIndex st k)) with
        | .error e => .error e
        | .ok sub => createValidatedState data rest (setIndex st k (withEmptyErrors sub))
  | data, (k, .sOther) :: rest, st =>
    createValidatedState data rest
      (setIndex st k (.node (some (prevTouchedOrFalse (metaIndex st k))) (some []) []))
termination_by _ schema _ => (sizeOf schema, 0)
decreasing_by all_goals (simp_wf; omega)

/-- `values.map((value, index) => createValidatedState(value,
schema[key].innerType.fields, Object.assign({}, state[key]?.[index])))`. -/
def buildElems : List (String × SchemaField) → Option StateNode → Nat → List Data → Except Unit (List StateNode)
  | _, _, _, [] => .ok []
  | inner, prevArr, i, v :: rest =>
    match createValidatedState (some v) inner (objAssignCopy (prevArr.bind (fun p => elemIndex p i))) with
    | .error e => .error e
    | .ok elem =>
      match buildElems inner prevArr (i + 1) rest with
      | .error e => .error e
      | .ok elems => .ok (elem :: elems)
termination_by inner _ _ values => (sizeOf inner, 1 + sizeOf values)
decreasing_by all_goals (simp_wf; omega)
end

/-- The `for..in` walk of `createRawState` when its `data` argument is a
nonempty string: each character index is a key whose value is a
one-character string (`typeof` `'string'`, neither array nor object), so
every index falls into the leaf branch. -/
def rawStrIdx : Nat → List Char → StateNode → StateNode
  | _, [], st => st
  | i, _ :: rest, st =>
    rawStrIdx (i + 1) rest
      (setIndex st (toString i)
        (.node (some (prevTouchedOrFalse (metaIndex st (toString i)))) (some []) []))

mutual
/-- `createRawState(data, state)`: no schema, so the builder walks the
data's own enumerable keys and infers the shape from the runtime value
types; `for..in` over an array root enumerates its indices as string keys
of the (object) `state`, and `for..in` over a nonempty string enumerates
its character indices (one leaf per character — see `rawStrIdx`).  Keys of
`state` not present in `data` are left as they were. -/
def createRawState : Data → StateNode → StateNode
  | .prim _, st => st
  | .str s, st => rawStrIdx 0 s.toList st
  | .dobj fields, st => rawFields fields st
  | .darr elems, st => rawIdxFields 0 elems st
termination_by structural d _ => d

def rawFields : List (String × Data) → StateNode → StateNode
  | [], st => st
  | (k, d) :: rest, st => rawFields rest (setIndex st k (rawChild d (metaIndex st k)))
termination_by structural l _ => l

def rawIdxFields : Nat → List Data → StateNode → StateNode
  | _, [], st => st
  | i, d :: rest, st =>
    rawIdxFields (i + 1) rest (setIndex st (toString i) (rawChild d (metaIndex st (toString i))))
termination_by structural _ l _ => l

/-- The branch dispatch of `createRawState` on one value `data[key]`:
array → one recursively built node per element against the previous
element metadata, plus a fresh `_errors` on the array itself;
object → `{...createRawState(data[key], Object.assign({}, state[key])),
_errors: []}` (inlined recursive call, since `createRawState` on an
object is exactly its field loop);
otherwise → a leaf seeded from the previous `_touched`. -/
def rawChild : Data → Option StateNode → StateNode
  | .darr es, prev => .seq none (some []) (rawElems 0 es prev)
  | .dobj fs, prev => withEmptyErrors (rawFields fs (objAssignCopy prev))
  | .prim _, prev => .node (some (prevTouchedOrFalse prev)) (some []) []
  | .str _, prev => .node (some (prevTouchedOrFalse prev)) (some []) []
termination_by structural d _ => d

/-- `values.map((value, index) => createRawState(value,
Object.assign({}, state[key]?.[index])))`. -/
def rawElems : Nat → List Data → Option StateNode → List StateNode
  | _, [], _ => []
  | i, v :: rest, prev =>
    createRawState v (objAssignCopy (prev.bind (fun p => elemIndex p i))) :: rawElems (i + 1) rest prev
termination_by structural _ l _ => l
end

example :
    createRawState (.dobj [("title", .prim 0), ("users", .darr [.dobj [("name", .prim 0)]])]) emptyState =
      .node none none
        [("title", .node (some false) (some []) []),
         ("users", .seq none (some [])
           [.node none none [("name", .node (some false) (some []) [])]])] := rfl

/-- `obj[lastSegment]._touched = true` in `updateFieldTouched`, guarded by
`if (obj[lastSegment])`; a bare `true` property would make the assignment
throw in strict mode, a corner no claim exercises, modelled as a no-op. -/
def touchLast (parent : StateNode) (last : String) : StateNode :=
  match metaIndex parent last with
  | some (.node _ e cs) => setIndex parent last (.node (some true) e cs)
  | some (.seq _ e vs) => setIndex parent last (.seq (some true) e vs)
  | some (.bval _) => parent
  | none => parent

def updateFieldTouchedGo : StateNode → List String → StateNode
  | st, [] => touchLast st "undefined"
  | st, [last] => touchLast st last
  | st, s :: rest =>
    match metaIndex st s with
    | some c => setIndex st s (updateFieldTouchedGo c rest)
    | none => st

/-- `updateFieldTouched(name, state)`: parse the control's name, walk the
intermediate segments (bailing out silently when one is missing), and set
the resolved node's `_touched` to `true`. -/
def updateFieldTouched (name : String) (st : StateNode) : StateNode :=
  let segments := parsePath name
  if segments.length > 1 && !(parentExists st segments.dropLast) then st
  else updateFieldTouchedGo st segments

example :
    updateFieldTouched "users"
      (.node none none [("users", .seq (some false) (some []) [])]) =
      .node none none [("users", .seq (some true) (some []) [])] := rfl

/-- The highlight argument of `validateForm`. -/
inductive Highlight where
  | hNone
  | hErrors
  | hAll
deriving BEq

/-- The configuration a form instance is created with, reduced to what the
core consumes: the introspected shape of the optional validation schema,
and the behaviour of its `validateSync` (the full list of violations it
reports for a given data tree — `abortEarly: false`; an empty list means
success).  The spec's §7 makes `validateSync` a pure function of the data,
which is what a Lean function argument models. -/
structure FormConfig where
  schema : Option (List (String × SchemaField))
  validator : Data → List Violation

/-- The observable state of one form instance: the two trees and the two
derived flags. -/
structure FormInst where
  values : Data
  state : StateNode
  isValid : Bool
  isTouched : Bool

/-- `createState(values, state, validationSchema)`: schema-driven build
when a schema is present, raw build otherwise, starting from `{}`. -/
def createState (values : Data) (schema : Option (List (String × SchemaField))) : Except Unit StateNode :=
  match schema with
  | some s => createValidatedState (some values) s emptyState
  | none => .ok (createRawState values emptyState)

/-- `updateState(form, validationSchema, state)`: rebuild against the
deep-copied previous metadata (the JSON round-trip copy is modelled as the
identity; see the module comment for the array-expando caveat). -/
def updateState (values : Data) (schema : Option (List (String × SchemaField))) (st : StateNode) : Except Unit StateNode :=
  match schema with
  | some s => createValidatedState (some values) s st
  | none => .ok (createRawState values st)

/-- The body of `validate` as called by `validateForm`: with no
`validationSchema`, `schema.validateSync` throws a `TypeError`, whose
missing `inner` field then kills `setErrors`'s loop right after the clear
pass — observable as a cleared tree and `false`. -/
def validateOp (cfg : FormConfig) (tv ti : Bool) (data : Data) (st : StateNode) : Bool × StateNode :=
  match cfg.schema with
  | none => (false, clearErrorsNode tv st)
  | some _ => validate (cfg.validator data) tv ti st

/-- `validateForm(highlight)`: `all` forces touched on every field,
`errors` only on invalid ones, `none` on neither; updates `isValid`. -/
def validateFormOp (cfg : FormConfig) (hl : Highlight) (f : FormInst) : FormInst :=
  let r := validateOp cfg (hl == .hAll) (hl == .hAll || hl == .hErrors) f.values f.state
  { f with isValid := r.1, state := r.2 }

/-- `updateForm()`: rebuild the metadata from the current data and the
previous metadata, then revalidate with the default highlight. -/
def updateFormOp (cfg : FormConfig) (f : FormInst) : Except Unit FormInst :=
  match updateState f.values cfg.schema f.state with
  | .error e => .error e
  | .ok st' => .ok (validateFormOp cfg .hNone { f with state := st' })

/-- `resetForm(newValue?)`: optionally replace the data (which notifies the
values subscription, running a validation pass against the old metadata
when a schema is present — computed here only for fidelity, since the
reset immediately overwrites it), then discard the metadata, reset both
flags, and rebuild a fresh tree from `{}`. -/
def resetFormOp (cfg : FormConfig) (f : FormInst) (newValue : Option Data) : Except Unit FormInst :=
  let values := newValue.getD f.values
  let _intermediate :=
    if newValue.isSome && cfg.schema.isSome then validateOp cfg false false values f.state
    else (f.isValid, f.state)
  match createState values cfg.schema with
  | .error e => .error e
  | .ok fresh => .ok ⟨values, fresh, false, false⟩

/-- `createForm(config)`: build the initial metadata, then subscribe to the
values store — svelte's `subscribe` invokes the callback synchronously
with the current value, so with a schema a first `validateForm()` pass
runs during construction itself. -/
def createFormOp (cfg : FormConfig) (initialValues : Data) : Except Unit FormInst :=
  match createState initialValues cfg.schema with
  | .error e => .error e
  | .ok st0 =>
    match cfg.schema with
    | some _ =>
      let r := validateOp cfg false false initialValues st0
      .ok ⟨initialValues, r.2, r.1, false⟩
    | none => .ok ⟨initialValues, st0, false, false⟩

/-! ### Observations on metadata trees -/

/-- Pure navigation along property segments (the path a UI binding such as
`$state.users[0].name` takes). -/
def nodeAt : StateNode → List String → Option StateNode
  | st, [] => some st
  | st, s :: rest => (metaIndex st s).bind (fun c => nodeAt c rest)

/-- The `_errors` list observed at a path. -/
def errorsAt (st : StateNode) (p : List String) : Option (List String) :=
  (nodeAt st p).bind StateNode.errorsOf

/-- The `_touched` flag observed at a path. -/
def touchedAt (st : StateNode) (p : List String) : Option Bool :=
  (nodeAt st p).bind StateNode.touchedOf

mutual
/-- No leaf of the tree has a nonempty `_errors` list, a leaf being an
object node with no children (the `{_touched, _errors}` shape). -/
def allLeafErrorsEmptyB : StateNode → Bool
  | .bval _ => true
  | .node _ e cs => (if cs.isEmpty then (e.getD []).isEmpty else true) && allLeafErrorsEmptyKids cs
  | .seq _ _ vs => allLeafErrorsEmptyElems vs
termination_by structural st => st

def allLeafErrorsEmptyKids : List (String × StateNode) → Bool
  | [] => true
  | (_, v) :: rest => allLeafErrorsEmptyB v && allLeafErrorsEmptyKids rest
termination_by structural l => l

def allLeafErrorsEmptyElems : List StateNode → Bool
  | [] => true
  | v :: rest => allLeafErrorsEmptyB v && allLeafErrorsEmptyElems rest
termination_by structural l => l
end

mutual
/-- Every node of the tree is pristine: `_touched` is absent or `false`
and `_errors` is absent or empty (the shape of a freshly built tree). -/
def pristineB : StateNode → Bool
  | .bval _ => true
  | .node t e cs => !(t.getD false) && (e.getD []).isEmpty && pristineKids cs
  | .seq t e vs => !(t.getD false) && (e.getD []).isEmpty && pristineElems vs
termination_by structural st => st

def pristineKids : List (String × StateNode) → Bool
  | [] => true
  | (_, v) :: rest => pristineB v && pristineKids rest
termination_by structural l => l

def pristineElems : List StateNode → Bool
  | [] => true
  | v :: rest => pristineB v && pristineElems rest
termination_by structural l => l
end

mutual
/-- Shape correspondence between a data tree and a metadata tree: a scalar
is matched by a childless object node (a leaf, whatever its flags), a
record key-for-key in order, a sequence index-for-index — with no extra
and no missing entries. -/
inductive Mirrors : Data → StateNode → Prop where
  | prim (n : Nat) (t : Option Bool) (e : Option (List String)) :
      Mirrors (.prim n) (.node t e [])
  | str (s : String) (t : Option Bool) (e : Option (List String)) :
      Mirrors (.str s) (.node t e [])
  | obj (fs : List (String × Data)) (cs : List (String × StateNode))
      (t : Option Bool) (e : Option (List String)) (h : MirrorsFields fs cs) :
      Mirrors (.dobj fs) (.node t e cs)
  | arr (es : List Data) (vs : List StateNode)
      (t : Option Bool) (e : Option (List String)) (h : MirrorsElems es vs) :
      Mirrors (.darr es) (.seq t e vs)

inductive MirrorsFields : List (String × Data) → List (String × StateNode) → Prop where
  | nil : MirrorsFields [] []
  | cons (k : String) (d : Data) (m : StateNode)
      (fs : List (String × Data)) (cs : List (String × StateNode))
      (h1 : Mirrors d m) (h2 : MirrorsFields fs cs) :
      MirrorsFields ((k, d) :: fs) ((k, m) :: cs)

inductive MirrorsElems : List Data → List StateNode → Prop where
  | nil : MirrorsElems [] []
  | cons (d : Data) (m : StateNode) (es : List Data) (vs : List StateNode)
      (h1 : Mirrors d m) (h2 : MirrorsElems es vs) :
      MirrorsElems (d :: es) (m :: vs)
end

/-! ### Claim theorems: concrete divergence evidence -/

/-- Claim C1 (code bug evidence): in a single error-application pass, an
unresolvable intermediate segment does *not* drop only that violation —
the `break` in `setErrors` abandons every later violation as well.  Here
the first violation's path `a.b` does not resolve while the second one's
path `c` does, yet after the pass `c`'s error list is still empty; the
same second violation applied on its own does land on `c`. -/
theorem c1_break_abandons_later_violations :
    errorsAt (setErrors (.node none none [("c", .node (some false) (some []) [])])
      [⟨some "a.b", "m1"⟩, ⟨some "c", "m2"⟩] false false) ["c"] = some [] ∧
    errorsAt (setErrors (.node none none [("c", .node (some false) (some []) [])])
      [⟨some "c", "m2"⟩] false false) ["c"] = some ["m2"] :=
  ⟨rfl, rfl⟩

/-- Claim C5 (code bug evidence): a violation with a `null` path makes
`error.path.toString()` throw inside `setErrors`; the catch logs and skips
the final `state.set`, but the store aliases the very object the clear
pass already mutated in place, so the observed tree is *not* the tree
from before the pass: the pre-existing error under `a` is gone. -/
theorem c5_catch_observes_mutated_tree :
    setErrors (.node none none [("a", .node (some false) (some ["old"]) [])])
      [⟨none, "x"⟩] false false ≠
      .node none none [("a", .node (some false) (some ["old"]) [])] ∧
    errorsAt (setErrors (.node none none [("a", .node (some false) (some ["old"]) [])])
      [⟨none, "x"⟩] false false) ["a"] = some [] :=
  ⟨fun h => absurd (congrArg (fun t => errorsAt t ["a"]) h) (by decide), rfl⟩

/-- Claim C6 (code bug evidence): the schema-driven build is *not* total
over missing data.  The object branch of `createValidatedState` reads
`data[key]` with no optional chaining, so a schema declaring a
nested-object field inside an object field that is entirely absent from
the data (`schema = {a: {b: {c}}}`, `data = {}`) makes the build throw a
`TypeError` instead of producing metadata nodes. -/
theorem c6_nested_missing_object_throws :
    createValidatedState (some (.dobj []))
      [("a", .sObject [("b", .sObject [("c", .sOther)])])] emptyState = .error () := by
  simp [createValidatedState, dataIndexStrict, dIndex, lookupField, metaIndex, lookupChild,
    emptyState, objAssignCopy, List.isEmpty]

/-- The metadata tree `createState` builds for `c8cfg` below: one `users`
form array holding a single element with no own `_errors` property. -/
def c8state : StateNode := .node none none [("users", .seq none (some []) [.node none none []])]

/-- A form whose schema declares `users` as an array of objects and whose
validator reports one array-element-level violation at `users[0]` (for
example a yup `.test` on the inner object). -/
def c8cfg : FormConfig := ⟨some [("users", .sArray [])], fun _ => [⟨some "users[0]", "m"⟩]⟩

/-- The C8 form instance: data `{users: [{}]}` with its schema-built
metadata. -/
def c8inst : FormInst := ⟨.dobj [("users", .darr [.dobj []])], c8state, false, false⟩

/-- Claim C8 (code bug evidence): `validateForm('none')` is *not*
error-idempotent.  `clearErrors` never resets an array element's own
`_errors` property (the element's keys are walked, but its own `_errors`
key is skipped and no parent branch resets it), so a violation addressed
to the element itself (`users[0]`) is appended again by every pass:
`["m"]` after the first call, `["m", "m"]` after the second, with no data
change in between.  The starting metadata is exactly what `createState`
builds for this schema and data. -/
theorem c8_errors_accumulate_across_passes :
    createState c8inst.values c8cfg.schema = .ok c8state ∧
    errorsAt (validateFormOp c8cfg .hNone c8inst).state ["users", "0"] = some ["m"] ∧
    errorsAt (validateFormOp c8cfg .hNone (validateFormOp c8cfg .hNone c8inst)).state
      ["users", "0"] = some ["m", "m"] := by
  refine ⟨?_, rfl, rfl⟩
  simp [createState, createValidatedState, buildElems, arrFieldValues, dIndex, lookupField,
    metaIndex, lookupChild, emptyState, objAssignCopy, setIndex, setChild, elemIndex, c8state,
    c8cfg, c8inst]

/-- Claim C2 (counterexample): touched is *not* monotonic at every
metadata node.  An array container whose `_touched` is `true` (reachable
through `updateFieldTouched("users")`, see the example above) is reset to
`false` by a `validateForm('none')` pass on a successfully validating
form, because the array branch of `clearErrors` re-evaluates the policy
on the freshly mapped array, whose `_touched` is `undefined`. -/
theorem c2_array_container_touched_reset :
    touchedAt (FormInst.state
      { values := .dobj [], state := .node none none [("users", .seq (some true) (some []) [])],
        isValid := false, isTouched := false }) ["users"] = some true ∧
    touchedAt (validateFormOp ⟨some [], fun _ => []⟩ .hNone
      { values := .dobj [], state := .node none none [("users", .seq (some true) (some []) [])],
        isValid := false, isTouched := false }).state ["users"] = some false :=
  ⟨rfl, rfl⟩

/-- Claim C3 (counterexample): with a schema, the built metadata tree does
*not* mirror the data tree's shape — the builder walks the schema's
declarations, so a schema field absent from the data still yields a
metadata entry.  Here the data is `{}` yet the metadata has the key
`title`. -/
theorem c3_schema_build_not_data_shaped :
    createValidatedState (some (.dobj [])) [("title", .sOther)] emptyState =
      .ok (.node none none [("title", .node (some false) (some []) [])]) ∧
    ¬ Mirrors (.dobj []) (.node none none [("title", .node (some false) (some []) [])]) := by
  constructor
  · simp [createValidatedState, prevTouchedOrFalse, metaIndex, lookupChild, emptyState,
      setIndex, setChild]
  · intro h
    cases h with
    | obj _ _ _ _ h => cases h

/-- Claim C4 (counterexample): the rebuilt tree's error lists are *not*
all empty.  A key present in the previous metadata but no longer produced
by the walk (here `b`, while the schema only declares `a`) is carried over
verbatim into the freshly built tree, its old error list included. -/
theorem c4_stale_key_keeps_errors :
    createValidatedState (some (.dobj [])) [("a", .sOther)]
      (.node none none [("b", .node (some false) (some ["m"]) [])]) =
      .ok (.node none none
        [("b", .node (some false) (some ["m"]) []), ("a", .node (some false) (some []) [])]) ∧
    errorsAt (.node none none
        [("b", .node (some false) (some ["m"]) []), ("a", .node (some false) (some []) [])])
      ["b"] = some ["m"] := by
  constructor
  · simp [createValidatedState, prevTouchedOrFalse, metaIndex, lookupChild, setIndex, setChild]
  · rfl

mutual
/-- The `_errors` lists a clear pass cannot reach — a node's own list when
the node is handed to `clearErrors` directly (the root, and the elements
of child-position arrays) — are already empty wherever the node counts as
a leaf; every tree the builders produce satisfies this. -/
def clearSafeNode : StateNode → Bool
  | .bval _ => true
  | .node _ e cs => (if cs.isEmpty then (e.getD []).isEmpty else true) && clearSafeKids cs
  | .seq _ _ vs => clearSafeChildElems vs
termination_by structural st => st

def clearSafeKids : List (String × StateNode) → Bool
  | [] => true
  | (_, v) :: rest => clearSafeChild v && clearSafeKids rest
termination_by structural l => l

def clearSafeChildElems : List StateNode → Bool
  | [] => true
  | v :: rest => clearSafeChild v && clearSafeChildElems rest
termination_by structural l => l

def clearSafeChild : StateNode → Bool
  | .bval _ => true
  | .node _ _ cs => clearSafeKids cs
  | .seq _ _ vs => clearSafeNodeElems vs
termination_by structural st => st

def clearSafeNodeElems : List StateNode → Bool
  | [] => true
  | v :: rest => clearSafeNode v && clearSafeNodeElems rest
termination_by structural l => l
end

mutual
theorem clearNode_leafClean (tv : Bool) : (st : StateNode) → clearSafeNode st = true →
    allLeafErrorsEmptyB (clearErrorsNode tv st) = true
  | .bval _, _ => rfl
  | .node t e cs, h => by
    rw [clearSafeNode, Bool.and_eq_true] at h
    rw [clearErrorsNode, allLeafErrorsEmptyB, Bool.and_eq_true]
    refine ⟨?_, clearKids_leafClean tv cs h.2⟩
    cases cs with
    | nil => exact h.1
    | cons c cs' => rfl
  | .seq t e vs, h => by
    rw [clearSafeNode] at h
    rw [clearErrorsNode, allLeafErrorsEmptyB]
    exact clearChildElems_leafClean tv vs h
termination_by structural st => st

theorem clearKids_leafClean (tv : Bool) : (cs : List (String × StateNode)) → clearSafeKids cs = true →
    allLeafErrorsEmptyKids (clearErrorsChildren tv cs) = true
  | [], _ => rfl
  | (k, v) :: rest, h => by
    rw [clearSafeKids, Bool.and_eq_true] at h
    rw [clearErrorsChildren, allLeafErrorsEmptyKids, Bool.and_eq_true]
    exact ⟨clearChild_leafClean tv v h.1, clearKids_leafClean tv rest h.2⟩
termination_by structural l => l

theorem clearChildElems_leafClean (tv : Bool) : (vs : List StateNode) → clearSafeChildElems vs = true →
    allLeafErrorsEmptyElems (clearErrorsElemsAsChildren tv vs) = true
  | [], _ => rfl
  | v :: rest, h => by
    rw [clearSafeChildElems, Bool.and_eq_true] at h
    rw [clearErrorsElemsAsChildren, allLeafErrorsEmptyElems, Bool.and_eq_true]
    exact ⟨clearChild_leafClean tv v h.1, clearChildElems_leafClean tv rest h.2⟩
termination_by structural l => l

theorem clearChild_leafClean (tv : Bool) : (st : StateNode) → clearSafeChild st = true →
    allLeafErrorsEmptyB (clearErrorsChild tv st) = true
  | .bval _, _ => rfl
  | .node t e cs, h => by
    rw [clearSafeChild] at h
    rw [clearErrorsChild, allLeafErrorsEmptyB, Bool.and_eq_true]
    refine ⟨?_, clearKids_leafClean tv cs h⟩
    cases cs with
    | nil => rfl
    | cons c cs' => rfl
  | .seq t e vs, h => by
    rw [clearSafeChild] at h
    rw [clearErrorsChild, allLeafErrorsEmptyB]
    exact clearNodeElems_leafClean tv vs h
termination_by structural st => st

theorem clearNodeElems_leafClean (tv : Bool) : (vs : List StateNode) → clearSafeNodeElems vs = true →
    allLeafErrorsEmptyElems (clearErrorsElemsAsNodes tv vs) = true
  | [], _ => rfl
  | v :: rest, h => by
    rw [clearSafeNodeElems, Bool.and_eq_true] at h
    rw [clearErrorsElemsAsNodes, allLeafErrorsEmptyElems, Bool.and_eq_true]
    exact ⟨clearNode_leafClean tv v h.1, clearNodeElems_leafClean tv rest h.2⟩
termination_by structural l => l
end

/-- Claim C7 (counterexample): `isValid` is *not* equivalent to "no leaf
has a nonempty error list".  When the only violation's path fails to
resolve (here `a.b` against a tree that only has `c`), the pass leaves
every error list empty yet returns `false`, so `isValid` is `false` while
the right-hand side of the claimed equivalence is `true`. -/
theorem c7_invalid_with_all_leaves_clean :
    (validate [⟨some "a.b", "m"⟩] false false
      (.node none none [("c", .node (some false) (some []) [])])).1 = false ∧
    allLeafErrorsEmptyB (validate [⟨some "a.b", "m"⟩] false false
      (.node none none [("c", .node (some false) (some []) [])])).2 = true :=
  ⟨rfl, rfl⟩

/-- Claim C7 (amended): the forward implication holds — whenever a
validation pass reports `isValid = true`, no leaf of the resulting
metadata tree carries a nonempty error list — provided the error lists a
clear pass cannot reach (see `clearSafeNode`) were already empty, which
is the case for every tree the builders produce. -/
theorem c7_isvalid_implies_leaves_clean (violations : List Violation) (tv ti : Bool)
    (st : StateNode) (hsafe : clearSafeNode st = true)
    (hvalid : (validate violations tv ti st).1 = true) :
    allLeafErrorsEmptyB (validate violations tv ti st).2 = true := by
  unfold validate at hvalid ⊢
  by_cases he : violations.isEmpty
  · rw [if_pos he]
    exact clearNode_leafClean tv st hsafe
  · rw [if_neg he] at hvalid
    exact absurd hvalid (by simp)

/-- Is the node a JS array (an array container of the metadata tree)? -/
def StateNode.isArr : StateNode → Bool
  | .seq _ _ _ => true
  | .node _ _ _ => false
  | .bval _ => false

theorem clearErrorsChildren_eq_map (tv : Bool) (cs : List (String × StateNode)) :
    clearErrorsChildren tv cs = cs.map (fun p => (p.1, clearErrorsChild tv p.2)) := by
  induction cs with
  | nil => rfl
  | cons c rest ih => rw [clearErrorsChildren, List.map_cons, ih]

theorem clearErrorsElemsAsChildren_eq_map (tv : Bool) (vs : List StateNode) :
    clearErrorsElemsAsChildren tv vs = vs.map (clearErrorsChild tv) := by
  induction vs with
  | nil => rfl
  | cons v rest ih => rw [clearErrorsElemsAsChildren, List.map_cons, ih]

theorem clearErrorsElemsAsNodes_eq_map (tv : Bool) (vs : List StateNode) :
    clearErrorsElemsAsNodes tv vs = vs.map (clearErrorsNode tv) := by
  induction vs with
  | nil => rfl
  | cons v rest ih => rw [clearErrorsElemsAsNodes, List.map_cons, ih]

theorem lookupChild_map (f : StateNode → StateNode) (cs : List (String × StateNode)) (k : String) :
    lookupChild (cs.map (fun p => (p.1, f p.2))) k = (lookupChild cs k).map f := by
  induction cs with
  | nil => rfl
  | cons c rest ih =>
    rw [List.map_cons, lookupChild, lookupChild]
    by_cases hk : c.1 = k
    · rw [if_pos hk, if_pos hk, Option.map_some']
    · rw [if_neg hk, if_neg hk, ih]

theorem lookupChild_setChild (cs : List (String × StateNode)) (k k' : String) (v : StateNode) :
    lookupChild (setChild cs k v) k' = if k = k' then some v else lookupChild cs k' := by
  induction cs with
  | nil => rfl
  | cons c rest ih =>
    rw [setChild]
    by_cases h0 : c.1 = k
    · rw [if_pos h0, lookupChild, lookupChild]
      by_cases h1 : k = k'
      · rw [if_pos h1, if_pos h1]
      · rw [if_neg h1, if_neg h1, ← h0] at *
        rw [if_neg h1]
    · rw [if_neg h0, lookupChild, lookupChild]
      by_cases h1 : c.1 = k'
      · rw [if_pos h1, if_pos h1]
        have : ¬ k = k' := fun he => h0 (h1.trans he.symm)
        rw [if_neg this]
      · rw [if_neg h1, if_neg h1, ih]

theorem touchPolicy_true (b : Bool) : touchPolicy (some true) b = true := by
  cases b <;> rfl

theorem touchedOf_setIndex : ∀ (st : StateNode) (k : String) (v : StateNode),
    (setIndex st k v).touchedOf = st.touchedOf
  | .bval _, _, _ => rfl
  | .node _ _ _, _, _ => rfl
  | .seq _ _ vs, k, v => by
    simp only [setIndex]
    split
    · split <;> rfl
    · rfl

/-- Writing a child through `setIndex` preserves every true `_touched`
flag, provided the written value preserves them relative to the child it
replaces. -/
theorem keeps_setIndex (st v : StateNode) (k : String)
    (hpres : ∀ c, metaIndex st k = some c → ∀ p n, nodeAt c p = some n →
      n.touchedOf = some true → ∃ n', nodeAt v p = some n' ∧ n'.touchedOf = some true) :
    ∀ p n, nodeAt st p = some n → n.touchedOf = some true →
      ∃ n', nodeAt (setIndex st k v) p = some n' ∧ n'.touchedOf = some true := by
  intro p n hat ht
  cases p with
  | nil =>
    rw [nodeAt] at hat
    injection hat with hat
    exact ⟨setIndex st k v, rfl, by rw [touchedOf_setIndex, hat]; exact ht⟩
  | cons s rest =>
    rw [nodeAt] at hat
    obtain ⟨c0, hc0, hrest⟩ := Option.bind_eq_some.mp hat
    cases st with
    | bval b => exact absurd hc0 (by rw [metaIndex]; exact Option.noConfusion)
    | node t e cs =>
      rw [metaIndex] at hc0
      by_cases hks : k = s
      · subst hks
        obtain ⟨n', hn', ht'⟩ := hpres c0 (by rw [metaIndex]; exact hc0) rest n hrest ht
        refine ⟨n', ?_, ht'⟩
        rw [nodeAt, setIndex, metaIndex, lookupChild_setChild, if_pos rfl, Option.some_bind]
        exact hn'
      · refine ⟨n, ?_, ht⟩
        rw [nodeAt, setIndex, metaIndex, lookupChild_setChild, if_neg hks, hc0, Option.some_bind]
        exact hrest
    | seq t e vs =>
      rw [metaIndex] at hc0
      obtain ⟨j, hj, hgetj⟩ := Option.bind_eq_some.mp hc0
      have hjlen : j < vs.length := by
        by_contra hlt
        rw [List.get?_eq_none.mpr (Nat.le_of_not_lt hlt)] at hgetj
        exact Option.noConfusion hgetj
      cases hik : jsArrayIndex k with
      | none =>
        refine ⟨n, ?_, ht⟩
        simp only [setIndex, hik]
        rw [nodeAt, metaIndex, hj, Option.some_bind, hgetj, Option.some_bind]
        exact hrest
      | some i =>
        by_cases hil : i < vs.length
        · by_cases hij : i = j
          · subst hij
            have hck : metaIndex (.seq t e vs) k = some c0 := by
              rw [metaIndex, hik, Option.some_bind]
              exact hgetj
            obtain ⟨n', hn', ht'⟩ := hpres c0 hck rest n hrest ht
            refine ⟨n', ?_, ht'⟩
            simp only [setIndex, hik, if_pos hil]
            rw [nodeAt, metaIndex, hj, Option.some_bind, List.get?_set_eq_of_lt v hil,
              Option.some_bind]
            exact hn'
          · refine ⟨n, ?_, ht⟩
            simp only [setIndex, hik, if_pos hil]
            rw [nodeAt, metaIndex, hj, Option.some_bind, List.get?_set_ne v vs hij, hgetj,
              Option.some_bind]
            exact hrest
        · refine ⟨n, ?_, ht⟩
          simp only [setIndex, hik, if_neg hil]
          rw [nodeAt, metaIndex, hj, Option.some_bind, List.get?_append hjlen, hgetj,
            Option.some_bind]
          exact hrest

/-- The final mutation of one violation preserves every true `_touched`
flag: the touch policy never turns `true` into `false`, and the message
push leaves children untouched. -/
theorem pushErrorAt_keeps (ti : Bool) (msg : String) (parent r : StateNode) (last : String)
    (h : pushErrorAt ti msg parent last = some r) :
    ∀ p n, nodeAt parent p = some n → n.touchedOf = some true →
      ∃ n', nodeAt r p = some n' ∧ n'.touchedOf = some true := by
  rw [pushErrorAt] at h
  cases hc : metaIndex parent last with
  | none =>
    rw [hc] at h
    injection h with h
    subst h
    refine keeps_setIndex parent _ last ?_
    intro c hcc
    rw [hcc] at hc
    exact Option.noConfusion hc
  | some c =>
    rw [hc] at h
    cases c with
    | bval b =>
      cases b with
      | true => exact Option.noConfusion h
      | false =>
        injection h with h
        subst h
        refine keeps_setIndex parent _ last ?_
        intro c' hcc p n hat ht
        rw [hcc] at hc
        injection hc with hc
        subst hc
        cases p with
        | nil =>
          rw [nodeAt] at hat
          injection hat with hat
          subst hat
          exact absurd ht (by rw [StateNode.touchedOf]; exact Option.noConfusion)
        | cons s rest => exact absurd hat (by rw [nodeAt, metaIndex, Option.none_bind]; exact Option.noConfusion)
    | node t e cs =>
      injection h with h
      subst h
      refine keeps_setIndex parent _ last ?_
      intro c' hcc p n hat ht
      rw [hcc] at hc
      injection hc with hc
      subst hc
      cases p with
      | nil =>
        rw [nodeAt] at hat
        injection hat with hat
        subst hat
        rw [StateNode.touchedOf] at ht
        subst ht
        exact ⟨_, rfl, by rw [StateNode.touchedOf, touchPolicy_true]⟩
      | cons s rest =>
        rw [nodeAt] at hat
        refine ⟨n, ?_, ht⟩
        rw [nodeAt]
        exact hat
    | seq t e vs =>
      injection h with h
      subst h
      refine keeps_setIndex parent _ last ?_
      intro c' hcc p n hat ht
      rw [hcc] at hc
      injection hc with hc
      subst hc
      cases p with
      | nil =>
        rw [nodeAt] at hat
        injection hat with hat
        subst hat
        rw [StateNode.touchedOf] at ht
        subst ht
        exact ⟨_, rfl, by rw [StateNode.touchedOf, touchPolicy_true]⟩
      | cons s rest =>
        rw [nodeAt] at hat
        refine ⟨n, ?_, ht⟩
        rw [nodeAt]
        exact hat

theorem applyErr_keeps (ti : Bool) (msg : String) : (segs : List String) →
    ∀ (st r : StateNode), applyErr ti msg st segs = some r →
    ∀ p n, nodeAt st p = some n → n.touchedOf = some true →
      ∃ n', nodeAt r p = some n' ∧ n'.touchedOf = some true
  | [], st, r, h => pushErrorAt_keeps ti msg st r "undefined" h
  | [last], st, r, h => pushErrorAt_keeps ti msg st r last h
  | s :: s2 :: rest, st, r, h => by
    cases hc : metaIndex st s with
    | none =>
      simp only [applyErr, hc] at h
      exact Option.noConfusion h
    | some c =>
      simp only [applyErr, hc] at h
      by_cases htr : c.truthy = true
      · rw [if_pos htr] at h
        obtain ⟨r', hr', hrr⟩ := Option.map_eq_some'.mp h
        subst hrr
        refine keeps_setIndex st r' s ?_
        intro c' hcc
        rw [hcc] at hc
        injection hc with hc
        subst hc
        exact applyErr_keeps ti msg (s2 :: rest) c' r' hr'
      · rw [if_neg htr] at h
        exact Option.noConfusion h

theorem setErrorsLoop_keeps (ti : Bool) : (vs : List Violation) → ∀ (st : StateNode),
    ∀ p n, nodeAt st p = some n → n.touchedOf = some true →
      ∃ n', nodeAt (setErrorsLoop ti st vs) p = some n' ∧ n'.touchedOf = some true
  | [], st, p, n, hat, ht => ⟨n, hat, ht⟩
  | v :: rest, st, p, n, hat, ht => by
    cases hvp : v.path with
    | none =>
      simp only [setErrorsLoop, hvp]
      exact ⟨n, hat, ht⟩
    | some pa =>
      simp only [setErrorsLoop, hvp]
      by_cases hcond :
          (decide ((parsePath pa).length > 1) && !parentExists st (parsePath pa).dropLast) = true
      · rw [if_pos hcond]
        exact ⟨n, hat, ht⟩
      · rw [if_neg hcond]
        cases hap : applyErr ti v.message st (parsePath pa) with
        | none => exact ⟨n, hat, ht⟩
        | some st' =>
          obtain ⟨n1, hn1, ht1⟩ := applyErr_keeps ti v.message (parsePath pa) st st' hap p n hat ht
          exact setErrorsLoop_keeps ti rest st' p n1 hn1 ht1

/-- A clear pass (either flavour of `clearErrors`'s recursion) keeps a
true `_touched` flag at every navigable path that does not denote an
array container. -/
theorem clear_keeps_touched (tv : Bool) : ∀ (p : List String),
    (∀ st n, nodeAt st p = some n → n.touchedOf = some true → n.isArr = false →
      ∃ n', nodeAt (clearErrorsNode tv st) p = some n' ∧ n'.touchedOf = some true) ∧
    (∀ st n, nodeAt st p = some n → n.touchedOf = some true → n.isArr = false →
      ∃ n', nodeAt (clearErrorsChild tv st) p = some n' ∧ n'.touchedOf = some true) := by
  intro p
  induction p with
  | nil =>
    constructor
    · intro st n hat ht ha
      rw [nodeAt] at hat
      injection hat with hat
      subst hat
      cases st with
      | bval b => exact absurd ht (by rw [StateNode.touchedOf]; exact Option.noConfusion)
      | node t e cs => exact ⟨_, rfl, ht⟩
      | seq t e vs => exact absurd ha (by rw [StateNode.isArr]; exact Bool.noConfusion)
    · intro st n hat ht ha
      rw [nodeAt] at hat
      injection hat with hat
      subst hat
      cases st with
      | bval b => exact absurd ht (by rw [StateNode.touchedOf]; exact Option.noConfusion)
      | node t e cs =>
        rw [StateNode.touchedOf] at ht
        subst ht
        exact ⟨_, rfl, by simp only [clearErrorsChild, StateNode.touchedOf, touchPolicy_true]⟩
      | seq t e vs => exact absurd ha (by rw [StateNode.isArr]; exact Bool.noConfusion)
  | cons s rest ih =>
    obtain ⟨ihn, ihc⟩ := ih
    have hnodecase : ∀ t e t' e' (cs : List (String × StateNode)) n,
        nodeAt (.node t e cs) (s :: rest) = some n → n.touchedOf = some true →
        n.isArr = false →
        ∃ n', nodeAt (.node t' e' (clearErrorsChildren tv cs)) (s :: rest) = some n' ∧
          n'.touchedOf = some true := by
      intro t e t' e' cs n hat ht ha
      rw [nodeAt, metaIndex] at hat
      obtain ⟨c0, hc0, hrest⟩ := Option.bind_eq_some.mp hat
      obtain ⟨n', hn', ht'⟩ := ihc c0 n hrest ht ha
      refine ⟨n', ?_, ht'⟩
      rw [nodeAt, metaIndex, clearErrorsChildren_eq_map, lookupChild_map, hc0,
        Option.map_some', Option.some_bind]
      exact hn'
    constructor
    · intro st n hat ht ha
      cases st with
      | bval b =>
        exact absurd hat (by rw [nodeAt, metaIndex, Option.none_bind]; exact Option.noConfusion)
      | node t e cs => exact hnodecase t e t e cs n hat ht ha
      | seq t e vs =>
        rw [nodeAt, metaIndex] at hat
        obtain ⟨c0, hc0, hrest⟩ := Option.bind_eq_some.mp hat
        obtain ⟨j, hj, hgetj⟩ := Option.bind_eq_some.mp hc0
        obtain ⟨n', hn', ht'⟩ := ihc c0 n hrest ht ha
        refine ⟨n', ?_, ht'⟩
        simp only [clearErrorsNode]
        rw [nodeAt, metaIndex, clearErrorsElemsAsChildren_eq_map, hj, Option.some_bind,
          List.get?_map, hgetj, Option.map_some', Option.some_bind]
        exact hn'
    · intro st n hat ht ha
      cases st with
      | bval b =>
        exact absurd hat (by rw [nodeAt, metaIndex, Option.none_bind]; exact Option.noConfusion)
      | node t e cs => exact hnodecase t e (some (touchPolicy t tv)) (some []) cs n hat ht ha
      | seq t e vs =>
        rw [nodeAt, metaIndex] at hat
        obtain ⟨c0, hc0, hrest⟩ := Option.bind_eq_some.mp hat
        obtain ⟨j, hj, hgetj⟩ := Option.bind_eq_some.mp hc0
        obtain ⟨n', hn', ht'⟩ := ihn c0 n hrest ht ha
        refine ⟨n', ?_, ht'⟩
        simp only [clearErrorsChild]
        rw [nodeAt, metaIndex, clearErrorsElemsAsNodes_eq_map, hj, Option.some_bind,
          List.get?_map, hgetj, Option.map_some', Option.some_bind]
        exact hn'

/-- Claim C2 (amended): across any validation pass — either highlight
policy, success or failure, schema or no schema — a metadata node whose
`_touched` is `true` before the pass still has `_touched = true` after it,
*except* when the node is an array container (whose flag the pass
overwrites with the `touchValid` policy flag, see the counterexample). -/
theorem c2_touched_monotonic_off_array_containers (cfg : FormConfig) (tv ti : Bool)
    (data : Data) (st : StateNode) (p : List String) (n : StateNode)
    (hat : nodeAt st p = some n) (ht : n.touchedOf = some true) (ha : n.isArr = false) :
    ∃ n', nodeAt (validateOp cfg tv ti data st).2 p = some n' ∧ n'.touchedOf = some true := by
  rw [validateOp]
  cases cfg.schema with
  | none => exact (clear_keeps_touched tv p).1 st n hat ht ha
  | some s =>
    rw [validate]
    by_cases he : (cfg.validator data).isEmpty
    · rw [if_pos he]
      exact (clear_keeps_touched tv p).1 st n hat ht ha
    · rw [if_neg he, setErrors]
      obtain ⟨n1, hn1, ht1⟩ := (clear_keeps_touched tv p).1 st n hat ht ha
      exact setErrorsLoop_keeps ti (cfg.validator data) (clearErrorsNode tv st) p n1 hn1 ht1

theorem c2_touched_monotonic_witness :
    nodeAt (.node none none [("title", .node (some true) (some []) [])]) ["title"] =
      some (.node (some true) (some []) []) ∧
    ∃ n', nodeAt (validateOp ⟨some [("title", .sOther)], fun _ => [⟨some "title", "req"⟩]⟩
        false true (.dobj []) (.node none none [("title", .node (some true) (some []) [])])).2
        ["title"] = some n' ∧ n'.touchedOf = some true :=
  ⟨rfl, c2_touched_monotonic_off_array_containers
    ⟨some [("title", .sOther)], fun _ => [⟨some "title", "req"⟩]⟩ false true (.dobj [])
    (.node none none [("title", .node (some true) (some []) [])]) ["title"]
    (.node (some true) (some []) []) rfl rfl rfl⟩

/-- `pristineB` lifted to an optional node (`undefined` is pristine). -/
def pristineOpt : Option StateNode → Bool
  | none => true
  | some c => pristineB c

theorem pristineKids_lookup : ∀ (cs : List (String × StateNode)) (k : String) (c : StateNode),
    pristineKids cs = true → lookupChild cs k = some c → pristineB c = true
  | [], _, _, _, hl => Option.noConfusion hl
  | (k0, v0) :: rest, k, c, hp, hl => by
    rw [pristineKids, Bool.and_eq_true] at hp
    rw [lookupChild] at hl
    by_cases h0 : k0 = k
    · rw [if_pos h0] at hl
      injection hl with hl
      subst hl
      exact hp.1
    · rw [if_neg h0] at hl
      exact pristineKids_lookup rest k c hp.2 hl

theorem pristineElems_get : ∀ (vs : List StateNode) (i : Nat) (c : StateNode),
    pristineElems vs = true → vs.get? i = some c → pristineB c = true
  | [], _, _, _, hl => Option.noConfusion hl
  | v :: rest, i, c, hp, hl => by
    rw [pristineElems, Bool.and_eq_true] at hp
    cases i with
    | zero =>
      injection hl with hl
      subst hl
      exact hp.1
    | succ j => exact pristineElems_get rest j c hp.2 hl

theorem pristine_metaIndex (st c : StateNode) (k : String)
    (h : pristineB st = true) (hc : metaIndex st k = some c) : pristineB c = true := by
  cases st with
  | bval b => exact Option.noConfusion hc
  | node t e cs =>
    rw [pristineB, Bool.and_eq_true, Bool.and_eq_true] at h
    exact pristineKids_lookup cs k c h.2 hc
  | seq t e vs =>
    rw [pristineB, Bool.and_eq_true, Bool.and_eq_true] at h
    rw [metaIndex] at hc
    obtain ⟨i, _, hgi⟩ := Option.bind_eq_some.mp hc
    exact pristineElems_get vs i c h.2 hgi

theorem pristine_metaIndexOpt (st : StateNode) (k : String)
    (h : pristineB st = true) : pristineOpt (metaIndex st k) = true := by
  cases hc : metaIndex st k with
  | none => rfl
  | some c => exact pristine_metaIndex st c k h hc

theorem pristine_elemIndex (st c : StateNode) (i : Nat)
    (h : pristineB st = true) (hc : elemIndex st i = some c) : pristineB c = true := by
  cases st with
  | bval b => exact Option.noConfusion hc
  | node t e cs =>
    rw [pristineB, Bool.and_eq_true, Bool.and_eq_true] at h
    exact pristineKids_lookup cs (toString i) c h.2 hc
  | seq t e vs =>
    rw [pristineB, Bool.and_eq_true, Bool.and_eq_true] at h
    exact pristineElems_get vs i c h.2 hc

theorem pristine_indexedChildren : ∀ (vs : List StateNode) (i : Nat),
    pristineElems vs = true → pristineKids (indexedChildren i vs) = true
  | [], _, _ => rfl
  | v :: rest, i, hp => by
    rw [pristineElems, Bool.and_eq_true] at hp
    rw [indexedChildren, pristineKids, Bool.and_eq_true]
    exact ⟨hp.1, pristine_indexedChildren rest (i + 1) hp.2⟩

theorem pristine_objAssignCopy (o : Option StateNode)
    (h : pristineOpt o = true) : pristineB (objAssignCopy o) = true := by
  cases o with
  | none => rfl
  | some c =>
    cases c with
    | bval b => rfl
    | node t e cs => exact h
    | seq t e vs =>
      rw [pristineOpt, pristineB, Bool.and_eq_true, Bool.and_eq_true] at h
      rw [objAssignCopy, pristineB, Bool.and_eq_true, Bool.and_eq_true]
      exact ⟨⟨h.1.1, h.1.2⟩, pristine_indexedChildren vs 0 h.2⟩

theorem pristine_withEmptyErrors (st : StateNode)
    (h : pristineB st = true) : pristineB (withEmptyErrors st) = true := by
  cases st with
  | bval b => rfl
  | node t e cs =>
    rw [pristineB, Bool.and_eq_true, Bool.and_eq_true] at h
    rw [withEmptyErrors, pristineB, Bool.and_eq_true, Bool.and_eq_true]
    exact ⟨⟨h.1.1, rfl⟩, h.2⟩
  | seq t e vs =>
    rw [pristineB, Bool.and_eq_true, Bool.and_eq_true] at h
    rw [withEmptyErrors, pristineB, Bool.and_eq_true, Bool.and_eq_true]
    exact ⟨⟨h.1.1, rfl⟩, pristine_indexedChildren vs 0 h.2⟩

theorem pristine_setChild : ∀ (cs : List (String × StateNode)) (k : String) (v : StateNode),
    pristineKids cs = true → pristineB v = true → pristineKids (setChild cs k v) = true
  | [], k, v, _, hv => by
    rw [setChild, pristineKids, pristineKids, Bool.and_eq_true]
    exact ⟨hv, rfl⟩
  | (k0, v0) :: rest, k, v, hp, hv => by
    rw [pristineKids, Bool.and_eq_true] at hp
    rw [setChild]
    by_cases h0 : k0 = k
    · rw [if_pos h0, pristineKids, Bool.and_eq_true]
      exact ⟨hv, hp.2⟩
    · rw [if_neg h0, pristineKids, Bool.and_eq_true]
      exact ⟨hp.1, pristine_setChild rest k v hp.2 hv⟩

theorem pristine_listSet : ∀ (vs : List StateNode) (i : Nat) (v : StateNode),
    pristineElems vs = true → pristineB v = true → pristineElems (vs.set i v) = true
  | [], _, _, hp, _ => hp
  | v0 :: rest, i, v, hp, hv => by
    rw [pristineElems, Bool.and_eq_true] at hp
    cases i with
    | zero =>
      rw [List.set_cons_zero, pristineElems, Bool.and_eq_true]
      exact ⟨hv, hp.2⟩
    | succ j =>
      rw [List.set_cons_succ, pristineElems, Bool.and_eq_true]
      exact ⟨hp.1, pristine_listSet rest j v hp.2 hv⟩

theorem pristine_listAppend : ∀ (vs : List StateNode) (v : StateNode),
    pristineElems vs = true → pristineB v = true → pristineElems (vs ++ [v]) = true
  | [], v, _, hv => by
    rw [List.nil_append, pristineElems, Bool.and_eq_true]
    exact ⟨hv, rfl⟩
  | v0 :: rest, v, hp, hv => by
    rw [pristineElems, Bool.and_eq_true] at hp
    rw [List.cons_append, pristineElems, Bool.and_eq_true]
    exact ⟨hp.1, pristine_listAppend rest v hp.2 hv⟩

theorem pristine_setIndex (st v : StateNode) (k : String)
    (h : pristineB st = true) (hv : pristineB v = true) :
    pristineB (setIndex st k v) = true := by
  cases st with
  | bval b => exact h
  | node t e cs =>
    rw [pristineB, Bool.and_eq_true, Bool.and_eq_true] at h
    rw [setIndex, pristineB, Bool.and_eq_true, Bool.and_eq_true]
    exact ⟨h.1, pristine_setChild cs k v h.2 hv⟩
  | seq t e vs =>
    rw [pristineB, Bool.and_eq_true, Bool.and_eq_true] at h
    cases hik : jsArrayIndex k with
    | none =>
      simp only [setIndex, hik]
      rw [pristineB, Bool.and_eq_true, Bool.and_eq_true]
      exact ⟨h.1, h.2⟩
    | some i =>
      by_cases hil : i < vs.length
      · simp only [setIndex, hik, if_pos hil]
        rw [pristineB, Bool.and_eq_true, Bool.and_eq_true]
        exact ⟨h.1, pristine_listSet vs i v h.2 hv⟩
      · simp only [setIndex, hik, if_neg hil]
        rw [pristineB, Bool.and_eq_true, Bool.and_eq_true]
        exact ⟨h.1, pristine_listAppend vs v h.2 hv⟩

theorem pristineOpt_prevTouched (o : Option StateNode)
    (h : pristineOpt o = true) : prevTouchedOrFalse o = false := by
  cases o with
  | none => rfl
  | some c =>
    rw [pristineOpt] at h
    cases c with
    | bval b => rfl
    | node t e cs =>
      rw [pristineB, Bool.and_eq_true, Bool.and_eq_true] at h
      rw [prevTouchedOrFalse, Option.some_bind, StateNode.touchedOf]
      simpa using h.1.1
    | seq t e vs =>
      rw [pristineB, Bool.and_eq_true, Bool.and_eq_true] at h
      rw [prevTouchedOrFalse, Option.some_bind, StateNode.touchedOf]
      simpa using h.1.1

theorem pristineOpt_bind_elemIndex (o : Option StateNode) (i : Nat)
    (h : pristineOpt o = true) : pristineOpt (o.bind (fun p => elemIndex p i)) = true := by
  cases o with
  | none => rfl
  | some c =>
    rw [Option.some_bind]
    cases hc : elemIndex c i with
    | none => rfl
    | some c' => exact pristine_elemIndex c c' i h hc

theorem rawStrIdx_pristine : ∀ (i : Nat) (l : List Char) (st : StateNode),
    pristineB st = true → pristineB (rawStrIdx i l st) = true
  | _, [], _, hp => hp
  | i, _ :: rest, st, hp =>
    rawStrIdx_pristine (i + 1) rest _
      (pristine_setIndex st _ (toString i) hp
        (by
          rw [pristineOpt_prevTouched (metaIndex st (toString i))
            (pristine_metaIndexOpt st (toString i) hp)]
          rfl))

mutual
theorem createValidatedState_pristine :
    ∀ (data : Option Data) (schema : List (String × SchemaField)) (st m : StateNode),
    pristineB st = true → createValidatedState data schema st = .ok m → pristineB m = true
  | _, [], st, m, hp, h => by
    rw [createValidatedState] at h
    injection h with h
    subst h
    exact hp
  | data, (k, .sArray inner) :: rest, st, m, hp, h => by
    simp only [createValidatedState] at h
    cases hav : arrFieldValues data k with
    | error e => simp only [hav] at h; exact Except.noConfusion h
    | ok values =>
      simp only [hav] at h
      cases hbe : buildElems inner (metaIndex st k) 0 values with
      | error e => simp only [hbe] at h; exact Except.noConfusion h
      | ok elems =>
        simp only [hbe] at h
        have hel : pristineElems elems = true :=
          buildElems_pristine inner (metaIndex st k) 0 values elems
            (pristine_metaIndexOpt st k hp) hbe
        have hch : pristineB (.seq none (some []) elems) = true := by
          rw [pristineB, Bool.and_eq_true, Bool.and_eq_true]
          exact ⟨⟨rfl, rfl⟩, hel⟩
        exact createValidatedState_pristine data rest _ m
          (pristine_setIndex st _ k hp hch) h
  | data, (k, .sObject fields) :: rest, st, m, hp, h => by
    simp only [createValidatedState] at h
    by_cases hemp : fields.isEmpty
    · rw [if_pos hemp] at h
      have hch : pristineB (.node (some (prevTouchedOrFalse (metaIndex st k))) (some []) []) = true := by
        rw [pristineOpt_prevTouched (metaIndex st k) (pristine_metaIndexOpt st k hp)]
        rfl
      exact createValidatedState_pristine data rest _ m (pristine_setIndex st _ k hp hch) h
    · rw [if_neg hemp] at h
      cases hdi : dataIndexStrict data k with
      | error e => simp only [hdi] at h; exact Except.noConfusion h
      | ok d' =>
        simp only [hdi] at h
        cases hsub : createValidatedState d' fields (objAssignCopy (metaIndex st k)) with
        | error e => simp only [hsub] at h; exact Except.noConfusion h
        | ok sub =>
          simp only [hsub] at h
          have hsubp : pristineB sub = true :=
            createValidatedState_pristine d' fields _ sub
              (pristine_objAssignCopy _ (pristine_metaIndexOpt st k hp)) hsub
          exact createValidatedState_pristine data rest _ m
            (pristine_setIndex st _ k hp (pristine_withEmptyErrors sub hsubp)) h
  | data, (k, .sOther) :: rest, st, m, hp, h => by
    simp only [createValidatedState] at h
    have hch : pristineB (.node (some (prevTouchedOrFalse (metaIndex st k))) (some []) []) = true := by
      rw [pristineOpt_prevTouched (metaIndex st k) (pristine_metaIndexOpt st k hp)]
      rfl
    exact createValidatedState_pristine data rest _ m (pristine_setIndex st _ k hp hch) h
termination_by _ schema _ _ _ _ => (sizeOf schema, 0)
decreasing_by all_goals (simp_wf; omega)

theorem buildElems_pristine :
    ∀ (inner : List (String × SchemaField)) (prevArr : Option StateNode) (i : Nat)
      (values : List Data) (elems : List StateNode),
    pristineOpt prevArr = true → buildElems inner prevArr i values = .ok elems →
    pristineElems elems = true
  | _, _, _, [], elems, _, h => by
    rw [buildElems] at h
    injection h with h
    subst h
    rfl
  | inner, prevArr, i, v :: rest, elems, hp, h => by
    simp only [buildElems] at h
    cases hel : createValidatedState (some v) inner
        (objAssignCopy (prevArr.bind (fun p => elemIndex p i))) with
    | error e => simp only [hel] at h; exact Except.noConfusion h
    | ok elem =>
      simp only [hel] at h
      cases hbe : buildElems inner prevArr (i + 1) rest with
      | error e => simp only [hbe] at h; exact Except.noConfusion h
      | ok elems' =>
        simp only [hbe] at h
        injection h with h
        subst h
        rw [pristineElems, Bool.and_eq_true]
        exact ⟨createValidatedState_pristine (some v) inner _ elem
            (pristine_objAssignCopy _ (pristineOpt_bind_elemIndex prevArr i hp)) hel,
          buildElems_pristine inner prevArr (i + 1) rest elems' hp hbe⟩
termination_by inner _ _ values _ _ _ => (sizeOf inner, 1 + sizeOf values)
decreasing_by all_goals (simp_wf; omega)
end

mutual
theorem createRawState_pristine : ∀ (d : Data) (st : StateNode),
    pristineB st = true → pristineB (createRawState d st) = true
  | .prim _, _, hp => hp
  | .str s, st, hp => rawStrIdx_pristine 0 s.toList st hp
  | .dobj fields, st, hp => rawFields_pristine fields st hp
  | .darr elems, st, hp => rawIdxFields_pristine 0 elems st hp
termination_by structural d _ _ => d

theorem rawFields_pristine : ∀ (fs : List (String × Data)) (st : StateNode),
    pristineB st = true → pristineB (rawFields fs st) = true
  | [], _, hp => hp
  | (k, d) :: rest, st, hp =>
    rawFields_pristine rest _
      (pristine_setIndex st _ k hp (rawChild_pristine d (metaIndex st k) (pristine_metaIndexOpt st k hp)))
termination_by structural fs _ _ => fs

theorem rawIdxFields_pristine : ∀ (i : Nat) (ds : List Data) (st : StateNode),
    pristineB st = true → pristineB (rawIdxFields i ds st) = true
  | _, [], _, hp => hp
  | i, d :: rest, st, hp =>
    rawIdxFields_pristine (i + 1) rest _
      (pristine_setIndex st _ (toString i) hp
        (rawChild_pristine d (metaIndex st (toString i)) (pristine_metaIndexOpt st (toString i) hp)))
termination_by structural _ ds _ _ => ds

theorem rawChild_pristine : ∀ (d : Data) (prev : Option StateNode),
    pristineOpt prev = true → pristineB (rawChild d prev) = true
  | .darr es, prev, hp => by
    rw [rawChild, pristineB, Bool.and_eq_true, Bool.and_eq_true]
    exact ⟨⟨rfl, rfl⟩, rawElems_pristine 0 es prev hp⟩
  | .dobj fs, prev, hp =>
    pristine_withEmptyErrors _ (rawFields_pristine fs _ (pristine_objAssignCopy prev hp))
  | .prim _, prev, hp => by
    rw [rawChild, pristineOpt_prevTouched prev hp]
    rfl
  | .str _, prev, hp => by
    rw [rawChild, pristineOpt_prevTouched prev hp]
    rfl
termination_by structural d _ _ => d

theorem rawElems_pristine : ∀ (i : Nat) (ds : List Data) (prev : Option StateNode),
    pristineOpt prev = true → pristineElems (rawElems i ds prev) = true
  | _, [], _, _ => rfl
  | i, d :: rest, prev, hp => by
    rw [rawElems, pristineElems, Bool.and_eq_true]
    exact ⟨createRawState_pristine d _
        (pristine_objAssignCopy _ (pristineOpt_bind_elemIndex prev i hp)),
      rawElems_pristine (i + 1) rest prev hp⟩
termination_by structural _ ds _ _ => ds
end

/-- Claim C9 (confirmed): after `resetForm(newData?)` completes, the data
tree is the replacement when one was supplied and unchanged otherwise, the
metadata tree is freshly rebuilt with `_touched` false-or-absent and
`_errors` empty-or-absent at every node (leaves and containers alike), and
both derived flags are `false`.  (The intermediate validation pass fired by
the values subscription is overwritten by the reset and does not survive
into the result.) -/
theorem c9_reset_form_postcondition (cfg : FormConfig) (f : FormInst) (nv : Option Data)
    (r : FormInst) (h : resetFormOp cfg f nv = .ok r) :
    r.values = nv.getD f.values ∧ pristineB r.state = true ∧
    r.isValid = false ∧ r.isTouched = false := by
  simp only [resetFormOp] at h
  cases hcs : createState (nv.getD f.values) cfg.schema with
  | error e => simp only [hcs] at h; exact Except.noConfusion h
  | ok fresh =>
    simp only [hcs] at h
    injection h with h
    subst h
    refine ⟨rfl, ?_, rfl, rfl⟩
    cases hs : cfg.schema with
    | some s =>
      rw [hs] at hcs
      simp only [createState] at hcs
      exact createValidatedState_pristine _ s emptyState fresh rfl hcs
    | none =>
      rw [hs] at hcs
      simp only [createState] at hcs
      injection hcs with hcs
      subst hcs
      exact createRawState_pristine _ emptyState rfl

theorem c9_reset_form_witness :
    resetFormOp ⟨some [("title", .sOther)], fun _ => []⟩
      ⟨.dobj [], .node none none [("x", .node (some true) (some ["err"]) [])], true, true⟩
      (some (.dobj [("title", .prim 0)])) =
      .ok ⟨.dobj [("title", .prim 0)],
        .node none none [("title", .node (some false) (some []) [])], false, false⟩ ∧
    (FormInst.values ⟨.dobj [("title", .prim 0)],
        .node none none [("title", .node (some false) (some []) [])], false, false⟩ =
      (some (.dobj [("title", .prim 0)])).getD (.dobj []) ∧
     pristineB (FormInst.state ⟨.dobj [("title", .prim 0)],
        .node none none [("title", .node (some false) (some []) [])], false, false⟩) = true ∧
     FormInst.isValid ⟨.dobj [("title", .prim 0)],
        .node none none [("title", .node (some false) (some []) [])], false, false⟩ = false ∧
     FormInst.isTouched ⟨.dobj [("title", .prim 0)],
        .node none none [("title", .node (some false) (some []) [])], false, false⟩ = false) :=
  ⟨by simp [resetFormOp, createState, createValidatedState, validateOp, validate, prevTouchedOrFalse,
      metaIndex, lookupChild, emptyState, setIndex, setChild],
   c9_reset_form_postcondition ⟨some [("title", .sOther)], fun _ => []⟩
    ⟨.dobj [], .node none none [("x", .node (some true) (some ["err"]) [])], true, true⟩
    (some (.dobj [("title", .prim 0)])) _
    (by simp [resetFormOp, createState, createValidatedState, validateOp, validate, prevTouchedOrFalse,
      metaIndex, lookupChild, emptyState, setIndex, setChild])⟩

theorem metaIndex_clearNode (tv : Bool) (st : StateNode) (k : String) :
    metaIndex (clearErrorsNode tv st) k = (metaIndex st k).map (clearErrorsChild tv) := by
  cases st with
  | bval b => rfl
  | node t e cs =>
    simp only [clearErrorsNode, metaIndex, clearErrorsChildren_eq_map, lookupChild_map]
  | seq t e vs =>
    simp only [clearErrorsNode, metaIndex, clearErrorsElemsAsChildren_eq_map]
    cases jsArrayIndex k with
    | none => rfl
    | some i => simp only [Option.some_bind, Option.map_bind]; rw [List.get?_map]

theorem metaIndex_setIndex_self (st v c : StateNode) (k : String)
    (h : metaIndex st k = some c) : metaIndex (setIndex st k v) k = some v := by
  cases st with
  | bval b => exact Option.noConfusion h
  | node t e cs =>
    rw [setIndex, metaIndex, lookupChild_setChild, if_pos rfl]
  | seq t e vs =>
    rw [metaIndex] at h
    obtain ⟨i, hi, hgi⟩ := Option.bind_eq_some.mp h
    have hil : i < vs.length := by
      by_contra hlt
      rw [List.get?_eq_none.mpr (Nat.le_of_not_lt hlt)] at hgi
      exact Option.noConfusion hgi
    simp only [setIndex, hi, if_pos hil, metaIndex, Option.some_bind]
    exact List.get?_set_eq_of_lt v hil

/-- Claim C10 (confirmed): when a validation schema is supplied,
`createForm` already runs a synchronous validation pass during
construction (the values subscription fires immediately): the returned
`isValid` equals whether the validator accepted the initial values, and
when the validator reports one violation whose single-segment path
resolves to an object node of the freshly built tree, the constructed
form's metadata already carries that message in the node's error list —
the tree does not come out with all-empty error lists. -/
theorem c10_construction_runs_validation (cfg : FormConfig) (d0 : Data)
    (s : List (String × SchemaField)) (m : StateNode) (r : FormInst)
    (hs : cfg.schema = some s)
    (hbuild : createState d0 cfg.schema = .ok m)
    (hok : createFormOp cfg d0 = .ok r) :
    r.isValid = (cfg.validator d0).isEmpty ∧
    (∀ msg pa k t es cs, cfg.validator d0 = [⟨some pa, msg⟩] → parsePath pa = [k] →
      metaIndex m k = some (.node t es cs) →
      ∃ t' cs', metaIndex r.state k = some (.node t' (some [msg]) cs')) := by
  rw [hs] at hbuild
  simp only [createFormOp, hs, hbuild, validateOp] at hok
  injection hok with hok
  subst hok
  constructor
  · by_cases he : (cfg.validator d0).isEmpty
    · simp [validate, he]
    · simp [validate, he]
  · intro msg pa k t es cs hv hpp hmk
    have hiv : ((cfg.validator d0).isEmpty : Bool) = false := by rw [hv]; rfl
    simp only [FormInst.state, validate, hiv, Bool.false_eq_true, if_false, setErrors, hv]
    have hclear : metaIndex (clearErrorsNode false m) k =
        some (.node (some (touchPolicy t false)) (some []) (clearErrorsChildren false cs)) := by
      rw [metaIndex_clearNode, hmk, Option.map_some']
      rfl
    simp only [setErrorsLoop, hpp, List.length_cons, List.length_nil, List.dropLast]
    rw [if_neg (by simp)]
    simp only [applyErr, pushErrorAt, hclear, setErrorsLoop]
    exact ⟨_, _, metaIndex_setIndex_self _ _ _ k hclear⟩

theorem c10_construction_witness :
    createFormOp ⟨some [("title", .sOther)], fun _ => [⟨some "title", "req"⟩]⟩ (.dobj []) =
      .ok ⟨.dobj [], .node none none [("title", .node (some false) (some ["req"]) [])],
        false, false⟩ ∧
    FormInst.isValid ⟨.dobj [], .node none none
        [("title", .node (some false) (some ["req"]) [])], false, false⟩ =
      (([⟨some "title", "req"⟩] : List Violation).isEmpty : Bool) ∧
    (∃ t' cs', metaIndex (FormInst.state ⟨.dobj [], .node none none
        [("title", .node (some false) (some ["req"]) [])], false, false⟩) "title" =
      some (.node t' (some ["req"]) cs')) := by
  refine ⟨?_, ?_, ?_⟩
  · simp [createFormOp, createState, createValidatedState, validateOp, validate, setErrors,
      setErrorsLoop, parsePath, parsePathAux, applyErr, pushErrorAt, prevTouchedOrFalse,
      metaIndex, lookupChild, emptyState, setIndex, setChild, clearErrorsNode,
      clearErrorsChildren, clearErrorsChild, touchPolicy, StateNode.truthy]
  · exact (c10_construction_runs_validation
      ⟨some [("title", .sOther)], fun _ => [⟨some "title", "req"⟩]⟩ (.dobj [])
      [("title", .sOther)] (.node none none [("title", .node (some false) (some []) [])]) _
      rfl
      (by simp [createState, createValidatedState, prevTouchedOrFalse, metaIndex, lookupChild,
        emptyState, setIndex, setChild])
      (by simp [createFormOp, createState, createValidatedState, validateOp, validate, setErrors,
        setErrorsLoop, parsePath, parsePathAux, applyErr, pushErrorAt, prevTouchedOrFalse,
        metaIndex, lookupChild, emptyState, setIndex, setChild, clearErrorsNode,
        clearErrorsChildren, clearErrorsChild, touchPolicy, StateNode.truthy])).1
  · exact (c10_construction_runs_validation
      ⟨some [("title", .sOther)], fun _ => [⟨some "title", "req"⟩]⟩ (.dobj [])
      [("title", .sOther)] (.node none none [("title", .node (some false) (some []) [])]) _
      rfl
      (by simp [createState, createValidatedState, prevTouchedOrFalse, metaIndex, lookupChild,
        emptyState, setIndex, setChild])
      (by simp [createFormOp, createState, createValidatedState, validateOp, validate, setErrors,
        setErrorsLoop, parsePath, parsePathAux, applyErr, pushErrorAt, prevTouchedOrFalse,
        metaIndex, lookupChild, emptyState, setIndex, setChild, clearErrorsNode,
        clearErrorsChildren, clearErrorsChild, touchPolicy, StateNode.truthy])).2
      "req" "title" "title" (some false) (some []) [] rfl rfl rfl

/-- Does the record have an entry with this key? -/
def hasFieldKey : List (String × Data) → String → Bool
  | [], _ => false
  | (k', _) :: rest, k => (k' == k) || hasFieldKey rest k

mutual
/-- Buildable at the positions where `createRawState` is applied to a data
value directly (the root, and array elements): a non-string primitive or
the empty string, or a record with distinct keys, none of them the
reserved `_touched`/`_errors` (which would alias the metadata properties
in JS), and buildable values.  An array in such a position is walked
index-by-index into a plain object, and a *nonempty* string into one leaf
per character (see the example after the mirror theorem), so both are
excluded. -/
def wfDataB : Data → Bool
  | .prim _ => true
  | .str s => s.toList.isEmpty
  | .dobj fs => wfFieldsB fs
  | .darr _ => false
termination_by structural d => d

def wfFieldsB : List (String × Data) → Bool
  | [] => true
  | (k, d) :: rest =>
    !(hasFieldKey rest k) && !(k == "_touched") && !(k == "_errors") && wfValB d && wfFieldsB rest
termination_by structural l => l

/-- Buildable as the value of a record field (arrays allowed here — the
array branch handles them — but their elements must again be `wfDataB`). -/
def wfValB : Data → Bool
  | .prim _ => true
  | .str _ => true
  | .dobj fs => wfFieldsB fs
  | .darr es => wfElemsB es
termination_by structural d => d

def wfElemsB : List Data → Bool
  | [] => true
  | d :: rest => wfDataB d && wfElemsB rest
termination_by structural l => l
end

/-- The children `createRawState` creates for a record when no previous
metadata exista: one freshly built node per field, in field order. -/
def rawFreshFields : List (String × Data) → List (String × StateNode)
  | [] => []
  | (k, d) :: rest => (k, rawChild d none) :: rawFreshFields rest

theorem hasFieldKey_false : ∀ (fs : List (String × Data)) (k : String),
    hasFieldKey fs k = false → ∀ kd ∈ fs, kd.1 ≠ k
  | [], _, _, _, hm => absurd hm (List.not_mem_nil _)
  | (k0, d0) :: rest, k, h, kd, hm => by
    rw [hasFieldKey, Bool.or_eq_false_iff] at h
    rcases List.mem_cons.mp hm with hh | ht
    · subst hh
      exact fun he => by
        have he' : k0 = k := he
        rw [he'] at h
        simpa using h.1
    · exact hasFieldKey_false rest k h.2 kd ht

theorem setChild_notfound : ∀ (cs : List (String × StateNode)) (k : String) (v : StateNode),
    lookupChild cs k = none → setChild cs k v = cs ++ [(k, v)]
  | [], _, _, _ => rfl
  | (k0, v0) :: rest, k, v, hl => by
    rw [lookupChild] at hl
    by_cases h0 : k0 = k
    · rw [if_pos h0] at hl
      exact Option.noConfusion hl
    · rw [if_neg h0] at hl
      rw [setChild, if_neg h0, setChild_notfound rest k v hl, List.cons_append]

theorem lookupChild_append_not : ∀ (cs : List (String × StateNode)) (k k' : String) (v : StateNode),
    lookupChild cs k' = none → ¬ k = k' → lookupChild (cs ++ [(k, v)]) k' = none
  | [], k, k', v, _, hne => by
    rw [List.nil_append, lookupChild, if_neg hne]
    rfl
  | (k0, v0) :: rest, k, k', v, hl, hne => by
    rw [lookupChild] at hl
    by_cases h0 : k0 = k'
    · rw [if_pos h0] at hl
      exact Option.noConfusion hl
    · rw [if_neg h0] at hl
      rw [List.cons_append, lookupChild, if_neg h0]
      exact lookupChild_append_not rest k k' v hl hne

/-- The record loop of `createRawState`, run on keys that are all new to
the state and mutually distinct, appends one freshly built node per field
in order and touches nothing else. -/
theorem rawFields_fresh : ∀ (fs : List (String × Data)) (t : Option Bool)
    (e : Option (List String)) (cs : List (String × StateNode)),
    (∀ kd ∈ fs, lookupChild cs kd.1 = none) → wfFieldsB fs = true →
    rawFields fs (.node t e cs) = .node t e (cs ++ rawFreshFields fs)
  | [], t, e, cs, _, _ => by rw [rawFields, rawFreshFields, List.append_nil]
  | (k, d) :: rest, t, e, cs, hnew, hwf => by
    rw [wfFieldsB] at hwf
    obtain ⟨⟨⟨⟨h1, _⟩, _⟩, _⟩, h5⟩ := by
      simpa only [Bool.and_eq_true] using hwf
    have hk : lookupChild cs k = none := hnew (k, d) (List.mem_cons_self _ _)
    have hkey : ∀ kd ∈ rest, kd.1 ≠ k :=
      hasFieldKey_false rest k (by simpa using h1)
    rw [rawFields, metaIndex, hk, setIndex, setChild_notfound cs k _ hk,
      rawFields_fresh rest t e (cs ++ [(k, rawChild d none)])
        (fun kd hm => lookupChild_append_not cs k kd.1 _ (hnew kd (List.mem_cons_of_mem _ hm))
          (fun he => hkey kd hm he.symm))
        h5,
      rawFreshFields]
    simp [List.append_assoc]

mutual
theorem mirrors_rawRoot : ∀ (d : Data), wfDataB d = true →
    Mirrors d (createRawState d (.node none none []))
  | .prim n, _ => Mirrors.prim n none none
  | .str s, h => by
    rw [wfDataB] at h
    show Mirrors _ (rawStrIdx 0 s.toList (.node none none []))
    cases hl : s.toList with
    | nil => exact Mirrors.str s none none
    | cons c l => rw [hl] at h; exact absurd h (by simp [List.isEmpty])
  | .dobj fs, h => by
    rw [wfDataB] at h
    show Mirrors _ (rawFields fs (.node none none []))
    rw [rawFields_fresh fs none none [] (fun kd _ => rfl) h]
    exact Mirrors.obj fs _ none none (mirrors_rawFreshFields fs h)
  | .darr _, h => absurd h (by rw [wfDataB]; exact Bool.noConfusion)
termination_by structural d _ => d

theorem mirrors_rawFreshFields : ∀ (fs : List (String × Data)), wfFieldsB fs = true →
    MirrorsFields fs (rawFreshFields fs)
  | [], _ => .nil
  | (k, d) :: rest, h => by
    rw [wfFieldsB] at h
    obtain ⟨⟨⟨⟨_, _⟩, _⟩, h4⟩, h5⟩ := by
      simpa only [Bool.and_eq_true] using h
    exact .cons k d _ rest _ (mirrors_rawChild d h4) (mirrors_rawFreshFields rest h5)
termination_by structural fs _ => fs

theorem mirrors_rawChild : ∀ (d : Data), wfValB d = true → Mirrors d (rawChild d none)
  | .prim n, _ => Mirrors.prim n (some false) (some [])
  | .str s, _ => Mirrors.str s (some false) (some [])
  | .dobj fs, h => by
    rw [wfValB] at h
    show Mirrors _ (withEmptyErrors (rawFields fs (.node none none [])))
    rw [rawFields_fresh fs none none [] (fun kd _ => rfl) h]
    exact Mirrors.obj fs _ none (some []) (mirrors_rawFreshFields fs h)
  | .darr es, h => by
    rw [wfValB] at h
    exact Mirrors.arr es _ none (some []) (mirrors_rawElems 0 es h)
termination_by structural d _ => d

theorem mirrors_rawElems : ∀ (i : Nat) (es : List Data), wfElemsB es = true →
    MirrorsElems es (rawElems i es none)
  | _, [], _ => .nil
  | i, d :: rest, h => by
    rw [wfElemsB, Bool.and_eq_true] at h
    exact .cons d _ rest _ (mirrors_rawRoot d h.1) (mirrors_rawElems (i + 1) rest h.2)
termination_by structural _ es _ => es
end

/-- Claim C3 (amended, schema-free half): without a schema and starting
from empty previous metadata, the raw builder produces a metadata tree
whose shape mirrors the data tree — same record keys in order, same
sequence lengths — for every well-formed data tree (root and array
elements are primitives or records with distinct non-reserved keys, and
no sequence directly inside a sequence). -/
theorem c3_raw_build_mirrors_data_shape (d : Data) (h : wfDataB d = true) :
    Mirrors d (createRawState d emptyState) :=
  mirrors_rawRoot d h

theorem c3_raw_build_mirrors_witness :
    wfDataB (.dobj [("title", .prim 0), ("users", .darr [.dobj [("name", .prim 0)]])]) = true ∧
    Mirrors (.dobj [("title", .prim 0), ("users", .darr [.dobj [("name", .prim 0)]])])
      (createRawState (.dobj [("title", .prim 0), ("users", .darr [.dobj [("name", .prim 0)]])])
        emptyState) :=
  ⟨rfl, c3_raw_build_mirrors_data_shape
    (.dobj [("title", .prim 0), ("users", .darr [.dobj [("name", .prim 0)]])]) rfl⟩

/-- Why `wfDataB` excludes nonempty strings at root and array-element
positions: JS `for..in` over the string "ab" enumerates the character
indices "0" and "1", so the raw builder turns the scalar into a keyed
node with one leaf per character instead of a leaf — its shape does not
mirror the data's. -/
theorem rawState_nonempty_string_is_keyed :
    createRawState (.str "ab") emptyState =
      .node none none
        [("0", .node (some false) (some []) []),
         ("1", .node (some false) (some []) [])] := rfl

/-- Does the schema declare this key? -/
def schemaHasKey : List (String × SchemaField) → String → Bool
  | [], _ => false
  | (k', _) :: rest, k => (k' == k) || schemaHasKey rest k

mutual
/-- Keys are distinct at every level of the schema (yup field maps cannot
repeat a key). -/
def schemaWfB : List (String × SchemaField) → Bool
  | [] => true
  | (k, f) :: rest => !(schemaHasKey rest k) && schemaFieldWfB f && schemaWfB rest
termination_by structural l => l

def schemaFieldWfB : SchemaField → Bool
  | .sOther => true
  | .sObject fs => schemaWfB fs
  | .sArray inner => schemaWfB inner
termination_by structural f => f
end

theorem schemaHasKey_false : ∀ (fs : List (String × SchemaField)) (k : String),
    schemaHasKey fs k = false → ∀ kf ∈ fs, kf.1 ≠ k
  | [], _, _, _, hm => absurd hm (List.not_mem_nil _)
  | (k0, f0) :: rest, k, h, kf, hm => by
    rw [schemaHasKey, Bool.or_eq_false_iff] at h
    rcases List.mem_cons.mp hm with hh | ht
    · subst hh
      exact fun he => by
        have he' : k0 = k := he
        rw [he'] at h
        simpa using h.1
    · exact schemaHasKey_false rest k h.2 kf ht

mutual
/-- What the walk of `createValidatedState` guarantees about the entries
it writes, reading the previous metadata `prev` the way the builder does:
leaf fields (and object fields with no declared sub-fields) become
`{_touched: previous-child's-touched-or-false, _errors: []}`; object
fields become object nodes with `_errors` reset whose contents are again
seeded against the copy of the previous child; array fields become fresh
arrays with `_errors = []` whose elements are seeded against the previous
element metadata, index by index. -/
def SeededP : List (String × SchemaField) → StateNode → StateNode → Prop
  | [], _, _ => True
  | (k, .sOther) :: rest, prev, result =>
      (metaIndex result k =
        some (.node (some (prevTouchedOrFalse (metaIndex prev k))) (some []) [])) ∧
      SeededP rest prev result
  | (k, .sObject fields) :: rest, prev, result =>
      (if fields.isEmpty then
        metaIndex result k =
          some (.node (some (prevTouchedOrFalse (metaIndex prev k))) (some []) [])
      else ∃ t cs, metaIndex result k = some (.node t (some []) cs) ∧
        SeededP fields (objAssignCopy (metaIndex prev k)) (.node t (some []) cs)) ∧
      SeededP rest prev result
  | (k, .sArray inner) :: rest, prev, result =>
      (∃ elems, metaIndex result k = some (.seq none (some []) elems) ∧
        SeededElems inner (metaIndex prev k) 0 elems) ∧
      SeededP rest prev result
termination_by schema _ _ => (sizeOf schema, 0)
decreasing_by all_goals (simp_wf; omega)

def SeededElems : List (String × SchemaField) → Option StateNode → Nat → List StateNode → Prop
  | _, _, _, [] => True
  | inner, prevArr, i, m :: ms =>
      SeededP inner (objAssignCopy (prevArr.bind (fun p => elemIndex p i))) m ∧
      SeededElems inner prevArr (i + 1) ms
termination_by inner _ _ ms => (sizeOf inner, 1 + sizeOf ms)
decreasing_by all_goals (simp_wf; omega)
end

/-- The schema walk only ever rewrites `state` through `setIndex` on an
object, so the result is an object with the original `_touched`/`_errors`
properties. -/
theorem cvs_node_shape : ∀ (data : Option Data) (schema : List (String × SchemaField))
    (t : Option Bool) (e : Option (List String)) (cs : List (String × StateNode)) (m : StateNode),
    createValidatedState data schema (.node t e cs) = .ok m →
    ∃ cs', m = .node t e cs'
  | _, [], t, e, cs, m, h => by
    rw [createValidatedState] at h
    injection h with h
    exact ⟨cs, h.symm⟩
  | data, (k, .sArray inner) :: rest, t, e, cs, m, h => by
    simp only [createValidatedState] at h
    cases hav : arrFieldValues data k with
    | error e0 => simp only [hav] at h; exact Except.noConfusion h
    | ok values =>
      simp only [hav] at h
      cases hbe : buildElems inner (metaIndex (.node t e cs) k) 0 values with
      | error e0 => simp only [hbe] at h; exact Except.noConfusion h
      | ok elems =>
        simp only [hbe] at h
        exact cvs_node_shape data rest t e _ m h
  | data, (k, .sObject fields) :: rest, t, e, cs, m, h => by
    simp only [createValidatedState] at h
    by_cases hemp : fields.isEmpty
    · rw [if_pos hemp] at h
      exact cvs_node_shape data rest t e _ m h
    · rw [if_neg hemp] at h
      cases hdi : dataIndexStrict data k with
      | error e0 => simp only [hdi] at h; exact Except.noConfusion h
      | ok d' =>
        simp only [hdi] at h
        cases hsub : createValidatedState d' fields (objAssignCopy (metaIndex (.node t e cs) k)) with
        | error e0 => simp only [hsub] at h; exact Except.noConfusion h
        | ok sub =>
          simp only [hsub] at h
          exact cvs_node_shape data rest t e _ m h
  | data, (k, .sOther) :: rest, t, e, cs, m, h => by
    simp only [createValidatedState] at h
    exact cvs_node_shape data rest t e _ m h

/-- Keys the schema walk never names keep the entry they had on entry. -/
theorem cvs_unwalked : ∀ (data : Option Data) (schema : List (String × SchemaField))
    (t : Option Bool) (e : Option (List String)) (cs : List (String × StateNode)) (m : StateNode),
    createValidatedState data schema (.node t e cs) = .ok m →
    ∀ k', (∀ kf ∈ schema, kf.1 ≠ k') → metaIndex m k' = lookupChild cs k'
  | _, [], t, e, cs, m, h, k', _ => by
    rw [createValidatedState] at h
    injection h with h
    subst h
    rfl
  | data, (k, .sArray inner) :: rest, t, e, cs, m, h, k', hk => by
    simp only [createValidatedState] at h
    cases hav : arrFieldValues data k with
    | error e0 => simp only [hav] at h; exact Except.noConfusion h
    | ok values =>
      simp only [hav] at h
      cases hbe : buildElems inner (metaIndex (.node t e cs) k) 0 values with
      | error e0 => simp only [hbe] at h; exact Except.noConfusion h
      | ok elems =>
        simp only [hbe] at h
        rw [cvs_unwalked data rest t e _ m h k' (fun kf hm => hk kf (List.mem_cons_of_mem _ hm)),
          lookupChild_setChild,
          if_neg (hk (k, .sArray inner) (List.mem_cons_self _ _))]
  | data, (k, .sObject fields) :: rest, t, e, cs, m, h, k', hk => by
    simp only [createValidatedState] at h
    by_cases hemp : fields.isEmpty
    · rw [if_pos hemp] at h
      rw [cvs_unwalked data rest t e _ m h k' (fun kf hm => hk kf (List.mem_cons_of_mem _ hm)),
        lookupChild_setChild,
        if_neg (hk (k, .sObject fields) (List.mem_cons_self _ _))]
    · rw [if_neg hemp] at h
      cases hdi : dataIndexStrict data k with
      | error e0 => simp only [hdi] at h; exact Except.noConfusion h
      | ok d' =>
        simp only [hdi] at h
        cases hsub : createValidatedState d' fields (objAssignCopy (metaIndex (.node t e cs) k)) with
        | error e0 => simp only [hsub] at h; exact Except.noConfusion h
        | ok sub =>
          simp only [hsub] at h
          rw [cvs_unwalked data rest t e _ m h k' (fun kf hm => hk kf (List.mem_cons_of_mem _ hm)),
            lookupChild_setChild,
            if_neg (hk (k, .sObject fields) (List.mem_cons_self _ _))]
  | data, (k, .sOther) :: rest, t, e, cs, m, h, k', hk => by
    simp only [createValidatedState] at h
    rw [cvs_unwalked data rest t e _ m h k' (fun kf hm => hk kf (List.mem_cons_of_mem _ hm)),
      lookupChild_setChild,
      if_neg (hk (k, .sOther) (List.mem_cons_self _ _))]

theorem objAssignCopy_isNode (o : Option StateNode) :
    ∃ t e cs, objAssignCopy o = .node t e cs := by
  cases o with
  | none => exact ⟨none, none, [], rfl⟩
  | some c =>
    cases c with
    | bval b => exact ⟨none, none, [], rfl⟩
    | node t e cs => exact ⟨t, e, cs, rfl⟩
    | seq t e vs => exact ⟨t, e, indexedChildren 0 vs, rfl⟩

/-- `SeededP` reads the previous metadata only through `metaIndex` at the
schema's own keys. -/
theorem SeededP_prevCongr : ∀ (schema : List (String × SchemaField)) (p1 p2 r : StateNode),
    (∀ kf ∈ schema, metaIndex p1 kf.1 = metaIndex p2 kf.1) →
    SeededP schema p1 r → SeededP schema p2 r
  | [], _, _, _, _, _ => by simp only [SeededP]
  | (k, .sOther) :: rest, p1, p2, r, hk, h => by
    simp only [SeededP] at h ⊢
    refine ⟨?_, SeededP_prevCongr rest p1 p2 r (fun kf hm => hk kf (List.mem_cons_of_mem _ hm)) h.2⟩
    rw [← hk (k, .sOther) (List.mem_cons_self _ _)]
    exact h.1
  | (k, .sObject fields) :: rest, p1, p2, r, hk, h => by
    simp only [SeededP] at h ⊢
    refine ⟨?_, SeededP_prevCongr rest p1 p2 r (fun kf hm => hk kf (List.mem_cons_of_mem _ hm)) h.2⟩
    rw [← hk (k, .sObject fields) (List.mem_cons_self _ _)]
    exact h.1
  | (k, .sArray inner) :: rest, p1, p2, r, hk, h => by
    simp only [SeededP] at h ⊢
    refine ⟨?_, SeededP_prevCongr rest p1 p2 r (fun kf hm => hk kf (List.mem_cons_of_mem _ hm)) h.2⟩
    rw [← hk (k, .sArray inner) (List.mem_cons_self _ _)]
    exact h.1

/-- `SeededP` reads the result only through `metaIndex`, which on an
object ignores the node's own `_touched`/`_errors`. -/
theorem SeededP_resultCongr : ∀ (schema : List (String × SchemaField)) (p : StateNode)
    (t1 : Option Bool) (e1 : Option (List String)) (t2 : Option Bool) (e2 : Option (List String))
    (cs : List (String × StateNode)),
    SeededP schema p (.node t1 e1 cs) → SeededP schema p (.node t2 e2 cs)
  | [], _, _, _, _, _, _, _ => by simp only [SeededP]
  | (k, .sOther) :: rest, p, t1, e1, t2, e2, cs, h => by
    simp only [SeededP, metaIndex] at h ⊢
    exact ⟨h.1, SeededP_resultCongr rest p t1 e1 t2 e2 cs h.2⟩
  | (k, .sObject fields) :: rest, p, t1, e1, t2, e2, cs, h => by
    simp only [SeededP, metaIndex] at h ⊢
    exact ⟨h.1, SeededP_resultCongr rest p t1 e1 t2 e2 cs h.2⟩
  | (k, .sArray inner) :: rest, p, t1, e1, t2, e2, cs, h => by
    simp only [SeededP, metaIndex] at h ⊢
    exact ⟨h.1, SeededP_resultCongr rest p t1 e1 t2 e2 cs h.2⟩

mutual
theorem createValidatedState_seeded : ∀ (data : Option Data)
    (schema : List (String × SchemaField)) (t : Option Bool) (e : Option (List String))
    (cs : List (String × StateNode)) (m : StateNode),
    schemaWfB schema = true →
    createValidatedState data schema (.node t e cs) = .ok m →
    SeededP schema (.node t e cs) m
  | _, [], _, _, _, _, _, _ => by simp only [SeededP]
  | data, (k, .sOther) :: rest, t, e, cs, m, hwf, h => by
    rw [schemaWfB] at hwf
    obtain ⟨⟨h1, _⟩, h3⟩ := by simpa only [Bool.and_eq_true] using hwf
    simp only [createValidatedState] at h
    have hkey : ∀ kf ∈ rest, kf.1 ≠ k := schemaHasKey_false rest k (by simpa using h1)
    simp only [SeededP]
    constructor
    · rw [cvs_unwalked data rest t e _ m h k hkey, lookupChild_setChild, if_pos rfl]
    · refine SeededP_prevCongr rest _ _ m ?_ (createValidatedState_seeded data rest t e _ m h3 h)
      intro kf hm
      simp only [metaIndex]
      rw [lookupChild_setChild, if_neg (fun he => hkey kf hm he.symm)]
  | data, (k, .sObject fields) :: rest, t, e, cs, m, hwf, h => by
    rw [schemaWfB] at hwf
    obtain ⟨⟨h1, h2⟩, h3⟩ := by simpa only [Bool.and_eq_true] using hwf
    simp only [createValidatedState] at h
    have hkey : ∀ kf ∈ rest, kf.1 ≠ k := schemaHasKey_false rest k (by simpa using h1)
    by_cases hemp : fields.isEmpty
    · rw [if_pos hemp] at h
      simp only [SeededP]
      constructor
      · rw [if_pos hemp, cvs_unwalked data rest t e _ m h k hkey, lookupChild_setChild,
          if_pos rfl]
      · refine SeededP_prevCongr rest _ _ m ?_ (createValidatedState_seeded data rest t e _ m h3 h)
        intro kf hm
        simp only [metaIndex]
        rw [lookupChild_setChild, if_neg (fun he => hkey kf hm he.symm)]
    · rw [if_neg hemp] at h
      cases hdi : dataIndexStrict data k with
      | error e0 => simp only [hdi] at h; exact Except.noConfusion h
      | ok d' =>
        simp only [hdi] at h
        obtain ⟨tp, ep, csp, hoc⟩ := objAssignCopy_isNode (metaIndex (.node t e cs) k)
        cases hsub : createValidatedState d' fields (objAssignCopy (metaIndex (.node t e cs) k)) with
        | error e0 => simp only [hsub] at h; exact Except.noConfusion h
        | ok sub =>
          simp only [hsub] at h
          rw [hoc] at hsub
          obtain ⟨cs', hsub'⟩ := cvs_node_shape d' fields tp ep csp sub hsub
          subst hsub'
          simp only [SeededP]
          constructor
          · rw [if_neg hemp]
            refine ⟨tp, cs', ?_, ?_⟩
            · rw [cvs_unwalked data rest t e _ m h k hkey, lookupChild_setChild, if_pos rfl]
              rfl
            · rw [hoc]
              have hwff : schemaWfB fields = true := by
                rw [schemaFieldWfB] at h2
                exact h2
              exact SeededP_resultCongr fields _ tp ep tp (some []) cs'
                (createValidatedState_seeded d' fields tp ep csp _ hwff hsub)
          · refine SeededP_prevCongr rest _ _ m ?_
              (createValidatedState_seeded data rest t e _ m h3 h)
            intro kf hm
            simp only [metaIndex]
            rw [lookupChild_setChild, if_neg (fun he => hkey kf hm he.symm)]
  | data, (k, .sArray inner) :: rest, t, e, cs, m, hwf, h => by
    rw [schemaWfB] at hwf
    obtain ⟨⟨h1, h2⟩, h3⟩ := by simpa only [Bool.and_eq_true] using hwf
    simp only [createValidatedState] at h
    have hkey : ∀ kf ∈ rest, kf.1 ≠ k := schemaHasKey_false rest k (by simpa using h1)
    cases hav : arrFieldValues data k with
    | error e0 => simp only [hav] at h; exact Except.noConfusion h
    | ok values =>
      simp only [hav] at h
      cases hbe : buildElems inner (metaIndex (.node t e cs) k) 0 values with
      | error e0 => simp only [hbe] at h; exact Except.noConfusion h
      | ok elems =>
        simp only [hbe] at h
        simp only [SeededP]
        constructor
        · refine ⟨elems, ?_, ?_⟩
          · rw [cvs_unwalked data rest t e _ m h k hkey, lookupChild_setChild, if_pos rfl]
          · have hwfi : schemaWfB inner = true := by
              rw [schemaFieldWfB] at h2
              exact h2
            exact buildElems_seeded inner (metaIndex (.node t e cs) k) 0 values elems hwfi hbe
        · refine SeededP_prevCongr rest _ _ m ?_
            (createValidatedState_seeded data rest t e _ m h3 h)
          intro kf hm
          simp only [metaIndex]
          rw [lookupChild_setChild, if_neg (fun he => hkey kf hm he.symm)]
termination_by _ schema _ _ _ _ _ _ => (sizeOf schema, 0)
decreasing_by all_goals (simp_wf; omega)

theorem buildElems_seeded : ∀ (inner : List (String × SchemaField))
    (prevArr : Option StateNode) (i : Nat) (values : List Data) (elems : List StateNode),
    schemaWfB inner = true → buildElems inner prevArr i values = .ok elems →
    SeededElems inner prevArr i elems
  | _, _, _, [], elems, _, h => by
    rw [buildElems] at h
    injection h with h
    subst h
    simp only [SeededElems]
  | inner, prevArr, i, v :: rest, elems, hwf, h => by
    simp only [buildElems] at h
    cases hel : createValidatedState (some v) inner
        (objAssignCopy (prevArr.bind (fun p => elemIndex p i))) with
    | error e0 => simp only [hel] at h; exact Except.noConfusion h
    | ok elem =>
      simp only [hel] at h
      cases hbe : buildElems inner prevArr (i + 1) rest with
      | error e0 => simp only [hbe] at h; exact Except.noConfusion h
      | ok elems' =>
        simp only [hbe] at h
        injection h with h
        subst h
        simp only [SeededElems]
        refine ⟨?_, buildElems_seeded inner prevArr (i + 1) rest elems' hwf hbe⟩
        obtain ⟨tp, ep, csp, hoc⟩ := objAssignCopy_isNode (prevArr.bind (fun p => elemIndex p i))
        rw [hoc] at hel
        rw [hoc]
        exact createValidatedState_seeded (some v) inner tp ep csp elem hwf hel
termination_by inner _ _ values _ _ _ => (sizeOf inner, 1 + sizeOf values)
decreasing_by all_goals (simp_wf; omega)
end

/-- Claim C4 (amended): for every field the rebuild actually walks — the
schema's declared fields, at every nesting level — the freshly written
entry of the rebuilt tree has its error list reset to `[]`, leaf fields
get `_touched` seeded from the previous metadata's entry at the same
key/index path (defaulting to false when absent), array entries are
rebuilt per current data element against the previous element metadata:
exactly the entry-by-entry guarantee `SeededP`.  Stale keys and array
elements' own error lists are instead carried over, see the
counterexample. -/
theorem c4_walked_fields_seeded_and_reset (values : Data)
    (s : List (String × SchemaField)) (t : Option Bool) (e : Option (List String))
    (cs : List (String × StateNode)) (m : StateNode)
    (hwf : schemaWfB s = true)
    (h : updateState values (some s) (.node t e cs) = .ok m) :
    SeededP s (.node t e cs) m := by
  simp only [updateState] at h
  exact createValidatedState_seeded (some values) s t e cs m hwf h

theorem c4_walked_fields_witness :
    schemaWfB [("title", .sOther)] = true ∧
    updateState (.dobj []) (some [("title", .sOther)])
      (.node none none [("title", .node (some true) (some ["old"]) [])]) =
      .ok (.node none none [("title", .node (some true) (some []) [])]) ∧
    SeededP [("title", .sOther)]
      (.node none none [("title", .node (some true) (some ["old"]) [])])
      (.node none none [("title", .node (some true) (some []) [])]) :=
  ⟨rfl,
   by simp [updateState, createValidatedState, prevTouchedOrFalse, metaIndex, lookupChild,
      setIndex, setChild, StateNode.touchedOf],
   c4_walked_fields_seeded_and_reset (.dobj []) [("title", .sOther)] none none
    [("title", .node (some true) (some ["old"]) [])]
    (.node none none [("title", .node (some true) (some []) [])]) rfl
    (by simp [updateState, createValidatedState, prevTouchedOrFalse, metaIndex, lookupChild,
      setIndex, setChild, StateNode.touchedOf])⟩

theorem c7_isvalid_witness :
    clearSafeNode (.node none none [("c", .node (some false) (some []) [])]) = true ∧
    (validate [] false true (.node none none [("c", .node (some false) (some []) [])])).1 = true ∧
    allLeafErrorsEmptyB (validate [] false true
      (.node none none [("c", .node (some false) (some []) [])])).2 = true :=
  ⟨rfl, rfl, c7_isvalid_implies_leaves_clean [] false true _ rfl rfl⟩

example :
    createValidatedState (some (.dobj [])) [("title", .sOther)] emptyState =
      .ok (.node none none [("title", .node (some false) (some []) [])]) := by
  simp [createValidatedState, prevTouchedOrFalse, metaIndex, lookupChild, emptyState, setIndex, setChild]
